import Mathlib

/-!
Verification of the incremental ingestion engine of the daGama repository.

The definitions below are a shallow embedding of
`src/packages/client/src/workers/jsonParser.worker.ts` (the streaming
parser worker: `parseJsonStream`, `parseArrayStream`, and the
`self.onmessage` protocol) and of the schema-inference module
(`getType`, `inferPropertySchema`).

Modelling conventions:
* Text is `List Char` (one entry per Unicode scalar; JS iterates UTF-16
  code units, which only differs on astral-plane characters that are
  inert for the scanner).
* JS numbers are modelled as exact rationals `Rat`; `Number.isInteger`
  becomes `q.den = 1`.  IEEE-754 rounding of extreme literals is not
  modelled.
* The host builtin `JSON.parse` is modelled by `jsonParse`, a
  recursive-descent parser for the JSON grammar (ECMA-404) with a fuel
  argument large enough for any input of the given length.
* Thrown `Error` messages are modelled by the inductive `WorkerError`;
  `WorkerError.arrayStructural` stands for the message
  "Failed to parse JSON array: Not a valid JSON array" and
  `WorkerError.docParseFailure` for "Failed to parse JSON: ..." with the
  engine-specific `JSON.parse` message.
-/

/-- A decoded JSON value (the worker's `unknown` results restricted to
what `JSON.parse` can produce).  Object fields keep insertion order and
may contain duplicate keys exactly as produced by the grammar walk. -/
inductive JsonValue where
  | null : JsonValue
  | bool (b : Bool) : JsonValue
  | num (q : Rat) : JsonValue
  | str (s : String) : JsonValue
  | arr (items : List JsonValue) : JsonValue
  | obj (fields : List (String × JsonValue)) : JsonValue

/-- JSON insignificant whitespace (also the model of `String.trim`'s
whitespace class; JS `trim` strips a few more exotic Unicode spaces,
none of which can occur in text accepted by `JSON.parse`). -/
def isWs (c : Char) : Bool :=
  c = ' ' || c = '\t' || c = '\n' || c = '\r'

/-- Drop leading whitespace. -/
def skipWs (cs : List Char) : List Char :=
  cs.dropWhile (fun c => isWs c)

/-- Model of JS `String.prototype.trim`. -/
def trimChars (cs : List Char) : List Char :=
  ((cs.dropWhile (fun c => isWs c)).reverse.dropWhile (fun c => isWs c)).reverse

/-- Decimal digit test. -/
def isDigitCh (c : Char) : Bool :=
  '0' ≤ c && c ≤ '9'

/-- Numeric value of a list of decimal digits. -/
def digitsToNat (ds : List Char) : Nat :=
  ds.foldl (fun acc c => acc * 10 + (c.toNat - '0'.toNat)) 0

/-- Hexadecimal digit test. -/
def isHexCh (c : Char) : Bool :=
  isDigitCh c || ('a' ≤ c && c ≤ 'f') || ('A' ≤ c && c ≤ 'F')

/-- Numeric value of one hexadecimal digit. -/
def hexVal (c : Char) : Nat :=
  if isDigitCh c then c.toNat - '0'.toNat
  else if 'a' ≤ c && c ≤ 'f' then c.toNat - 'a'.toNat + 10
  else c.toNat - 'A'.toNat + 10

/-- The translation of a single-character escape `\e` inside a string
literal (`\uXXXX` escapes are handled separately). -/
def escChar (e : Char) : Option Char :=
  if e = '"' || e = '\\' || e = '/' then some e
  else if e = 'b' then some (Char.ofNat 8)
  else if e = 'f' then some (Char.ofNat 12)
  else if e = 'n' then some '\n'
  else if e = 'r' then some '\r'
  else if e = 't' then some '\t'
  else none

/-- Body of a JSON string literal, after the opening quote: returns the
decoded characters and the text after the closing quote.  `\uXXXX`
escapes become the scalar `Char.ofNat` of their code unit (UTF-16
surrogate pairing is not modelled). -/
def parseStringBody : List Char → Option (List Char × List Char)
  | [] => none
  | c :: cs =>
    if c = '"' then some ([], cs)
    else if c = '\\' then
      match cs with
      | [] => none
      | e :: cs' =>
        if e = 'u' then
          match cs' with
          | h1 :: h2 :: h3 :: h4 :: cs'' =>
            if isHexCh h1 && isHexCh h2 && isHexCh h3 && isHexCh h4 then
              (parseStringBody cs'').map (fun p =>
                (Char.ofNat (((hexVal h1 * 16 + hexVal h2) * 16 + hexVal h3) * 16 + hexVal h4) :: p.1, p.2))
            else none
          | _ => none
        else
          match escChar e with
          | some ch => (parseStringBody cs').map (fun p => (ch :: p.1, p.2))
          | none => none
    else if c.toNat < 32 then none
    else (parseStringBody cs).map (fun p => (c :: p.1, p.2))

/-- The digits of a JSON number's integer part: a lone `0`, or a
nonzero digit followed by any digits. -/
def parseIntDigits : List Char → Option (List Char × List Char)
  | [] => none
  | c :: cs =>
    if c = '0' then some ([c], cs)
    else if isDigitCh c then some (c :: cs.takeWhile (fun d => isDigitCh d), cs.dropWhile (fun d => isDigitCh d))
    else none

/-- Fraction part `.digits` if present. -/
def parseFracDigits (cs : List Char) : Option (List Char × List Char) :=
  match cs with
  | '.' :: cs' =>
    let ds := cs'.takeWhile (fun d => isDigitCh d)
    if ds = [] then none else some (ds, cs'.dropWhile (fun d => isDigitCh d))
  | _ => some ([], cs)

/-- Exponent part `e[+-]digits` if present, as an integer. -/
def parseExpPart (cs : List Char) : Option (Int × List Char) :=
  match cs with
  | c :: cs' =>
    if c = 'e' || c = 'E' then
      match cs' with
      | s :: cs'' =>
        if s = '+' then
          let ds := cs''.takeWhile (fun d => isDigitCh d)
          if ds = [] then none else some ((digitsToNat ds : Int), cs''.dropWhile (fun d => isDigitCh d))
        else if s = '-' then
          let ds := cs''.takeWhile (fun d => isDigitCh d)
          if ds = [] then none else some (-(digitsToNat ds : Int), cs''.dropWhile (fun d => isDigitCh d))
        else
          let ds := cs'.takeWhile (fun d => isDigitCh d)
          if ds = [] then none else some ((digitsToNat ds : Int), cs'.dropWhile (fun d => isDigitCh d))
      | [] => none
    else some (0, cs)
  | [] => some (0, cs)

/-- A JSON number literal, as an exact rational. -/
def parseNumber (cs : List Char) : Option (JsonValue × List Char) :=
  let (neg, cs₀) := match cs with
    | '-' :: rest => (true, rest)
    | _ => (false, cs)
  match parseIntDigits cs₀ with
  | none => none
  | some (ids, cs₁) =>
    match parseFracDigits cs₁ with
    | none => none
    | some (fds, cs₂) =>
      match parseExpPart cs₂ with
      | none => none
      | some (e, cs₃) =>
        let m : Nat := digitsToNat (ids ++ fds)
        let ex : Int := e - (fds.length : Int)
        let q : Rat :=
          if 0 ≤ ex then ((m * 10 ^ ex.toNat : Nat) : Rat)
          else mkRat (m : Int) (10 ^ (-ex).toNat)
        some (.num (if neg then -q else q), cs₃)

/-- The part of `parseNumber` after the sign has been split off: the
integer, fraction and exponent parts, assembled into the value. -/
def parseNumberTail (neg : Bool) (cs₀ : List Char) : Option (JsonValue × List Char) :=
  match parseIntDigits cs₀ with
  | none => none
  | some (ids, cs₁) =>
    match parseFracDigits cs₁ with
    | none => none
    | some (fds, cs₂) =>
      match parseExpPart cs₂ with
      | none => none
      | some (e, cs₃) =>
        let m : Nat := digitsToNat (ids ++ fds)
        let ex : Int := e - (fds.length : Int)
        let q : Rat :=
          if 0 ≤ ex then ((m * 10 ^ ex.toNat : Nat) : Rat)
          else mkRat (m : Int) (10 ^ (-ex).toNat)
        some (.num (if neg then -q else q), cs₃)

mutual

/-- One JSON value, starting at a non-whitespace character; consumes
exactly the value's text (no trailing whitespace). -/
def parseRaw : Nat → List Char → Option (JsonValue × List Char)
  | 0, _ => none
  | _ + 1, [] => none
  | f + 1, c :: cs =>
    if c = '{' then parseObjBody f cs
    else if c = '[' then parseArrBody f cs
    else if c = '"' then (parseStringBody cs).map (fun p => (.str (String.mk p.1), p.2))
    else if c = 't' then
      match cs with
      | 'r' :: 'u' :: 'e' :: rest => some (.bool true, rest)
      | _ => none
    else if c = 'f' then
      match cs with
      | 'a' :: 'l' :: 's' :: 'e' :: rest => some (.bool false, rest)
      | _ => none
    else if c = 'n' then
      match cs with
      | 'u' :: 'l' :: 'l' :: rest => some (.null, rest)
      | _ => none
    else if c = '-' || isDigitCh c then parseNumber (c :: cs)
    else none

/-- A JSON value with leading whitespace skipped. -/
def parseVal (f : Nat) (cs : List Char) : Option (JsonValue × List Char) :=
  match f with
  | 0 => none
  | f + 1 => parseRaw f (skipWs cs)

/-- Interior of an array, after the opening `[`. -/
def parseArrBody (f : Nat) (cs : List Char) : Option (JsonValue × List Char) :=
  match f with
  | 0 => none
  | f + 1 =>
    match skipWs cs with
    | ']' :: rest => some (.arr [], rest)
    | _ => (parseElems f cs).map (fun p => (.arr p.1, p.2))

/-- One or more comma-separated array elements, then the closing `]`. -/
def parseElems (f : Nat) (cs : List Char) : Option (List JsonValue × List Char) :=
  match f with
  | 0 => none
  | f + 1 =>
    match parseVal f cs with
    | none => none
    | some (v, cs₁) =>
      match skipWs cs₁ with
      | ',' :: cs₂ => (parseElems f cs₂).map (fun p => (v :: p.1, p.2))
      | ']' :: cs₂ => some ([v], cs₂)
      | _ => none

/-- Interior of an object, after the opening `{`. -/
def parseObjBody (f : Nat) (cs : List Char) : Option (JsonValue × List Char) :=
  match f with
  | 0 => none
  | f + 1 =>
    match skipWs cs with
    | '}' :: rest => some (.obj [], rest)
    | _ => (parseFields f cs).map (fun p => (.obj p.1, p.2))

/-- One or more `"key": value` fields, then the closing `}`. -/
def parseFields (f : Nat) (cs : List Char) : Option (List (String × JsonValue) × List Char) :=
  match f with
  | 0 => none
  | f + 1 =>
    match skipWs cs with
    | '"' :: cs₀ =>
      match parseStringBody cs₀ with
      | none => none
      | some (key, cs₁) =>
        match skipWs cs₁ with
        | ':' :: cs₂ =>
          match parseVal f cs₂ with
          | none => none
          | some (v, cs₃) =>
            match skipWs cs₃ with
            | ',' :: cs₄ => (parseFields f cs₄).map (fun p => ((String.mk key, v) :: p.1, p.2))
            | '}' :: cs₄ => some ([(String.mk key, v)], cs₄)
            | _ => none
        | _ => none
    | _ => none

end

/-- Fuel that is always sufficient for an input of length `n`: each unit
of grammar nesting consumes at least one character, and every parser
call chain of length four consumes at least one character. -/
def fuelFor (n : Nat) : Nat := 4 * n + 8

/-- Model of the host `JSON.parse`: the whole text must be one JSON
value surrounded only by whitespace. -/
def jsonParse (cs : List Char) : Option JsonValue :=
  match parseVal (fuelFor cs.length) cs with
  | none => none
  | some (v, rest) => if skipWs rest = [] then some v else none

/-! ## The worker pipeline (`jsonParser.worker.ts`) -/

/-- Error channel of the worker (modelled structurally; in the source
these are `Error` message strings). -/
inductive WorkerError where
  | arrayStructural : WorkerError
  | docParseFailure : WorkerError
deriving DecidableEq

/-- An event posted by the worker to the host: a `ProgressMessage`, a
`PartialMessage`, or the terminal `CompleteMessage`.  On error the
source posts `data: null`, modelled as `JsonValue.null`. -/
inductive WEvent where
  | progress (fraction : Rat) (processed : Nat) (total : Nat) : WEvent
  | partialEv (items : List JsonValue) (count : Nat) : WEvent
  | complete (data : JsonValue) (error : Option WorkerError) : WEvent

/-- `ScanState` of the chunk scanner: the four mutable locals
`braceCount`, `bracketCount`, `inString`, `escapeNext` of
`parseArrayStream`'s character loop. -/
structure ScanSt where
  braceCount : Int
  bracketCount : Int
  inString : Bool
  escapeNext : Bool
deriving DecidableEq, Repr

/-- The initial scanner state. -/
def ScanSt.init : ScanSt := ⟨0, 0, false, false⟩

/-- One character step of the chunk scanner's loop body.  Returns the
new state and whether the character was recognized as a top-level
separator (the `else if (char === "," && braceCount === 0 &&
bracketCount === 0)` branch, which is the only branch that does not
append the character to `currentItem`). -/
def scanStep (st : ScanSt) (c : Char) : ScanSt × Bool :=
  if st.escapeNext then ({ st with escapeNext := false }, false)
  else if c = '\\' && st.inString then ({ st with escapeNext := true }, false)
  else
    let st1 := if c = '"' then { st with inString := !st.inString } else st
    if !st1.inString then
      if c = '{' then ({ st1 with braceCount := st1.braceCount + 1 }, false)
      else if c = '}' then ({ st1 with braceCount := st1.braceCount - 1 }, false)
      else if c = '[' then ({ st1 with bracketCount := st1.bracketCount + 1 }, false)
      else if c = ']' then ({ st1 with bracketCount := st1.bracketCount - 1 }, false)
      else if c = ',' && st1.braceCount = 0 && st1.bracketCount = 0 then (st1, true)
      else (st1, false)
    else (st1, false)

/-- The splitting part of the scan loop, without progress events: folds
`scanStep` over the text, pushing `currentItem.trim()` and resetting it
at each separator.  Returns (final state, pushed items, currentItem). -/
def splitFold (st : ScanSt) (acc : List (List Char)) (cur : List Char) :
    List Char → ScanSt × List (List Char) × List Char
  | [] => (st, acc, cur)
  | c :: cs =>
    let (st', isSep) := scanStep st c
    if isSep then splitFold st' (acc ++ [trimChars cur]) [] cs
    else splitFold st' acc (cur ++ [c]) cs

/-- The progress events emitted by the scan loop: one per index that is
a multiple of 10000, with fraction `(i / total) * 70`. -/
def scanProgress (total len : Nat) : List WEvent :=
  (List.range len).filterMap (fun (i : Nat) =>
    if i % 10000 = 0 then some (.progress ((i : Rat) / (total : Rat) * 70) i total) else none)

/-- Result of the scan phase of `parseArrayStream`: the `arrayItems`
list, including the final `if (currentItem.trim()) push` step. -/
def scanItems (innerContent : List Char) : List (List Char) :=
  let (_, acc, cur) := splitFold ScanSt.init [] [] innerContent
  if trimChars cur ≠ [] then acc ++ [trimChars cur] else acc

/-- Item decoding of one span: `JSON.parse(itemStr)` under the per-item
`try/catch` (failures yield `none` and are dropped). -/
def decodeItem (s : List Char) : Option JsonValue := jsonParse s

/-- The batch loop of `parseArrayStream`: decodes `arrayItems` in
batches of `bs`, accumulating successes, emitting one progress event per
batch and a partial snapshot whenever the accumulated count is a
multiple of `2 * bs`.  `i` is the absolute index of the batch start;
`n = arrayItems.length`; `processed` and `total` are the stale byte
counters used by the source's progress calls.  The `fuel` argument only
bounds recursion; the caller passes `arrayItems.length`, which never
runs out because the source guarantees `bs = max 1 _ ≥ 1`. -/
def batchLoop (total processed n bs : Nat) (hasPartial : Bool) :
    Nat → Nat → List JsonValue → List (List Char) → List WEvent × List JsonValue
  | _, _, items, [] => ([], items)
  | 0, _, items, _ :: _ => ([], items)
  | fuel + 1, i, items, rem =>
    let batch := rem.take bs
    let parsedBatch := batch.filterMap decodeItem
    let items' := items ++ parsedBatch
    let evts : List WEvent :=
      .progress (70 + ((i + batch.length : Nat) : Rat) / (n : Rat) * 30) processed total ::
        (if hasPartial && items'.length % (bs * 2) = 0 then [.partialEv items' items'.length] else [])
    let rest := batchLoop total processed n bs hasPartial fuel (i + bs) items' (rem.drop bs)
    (evts ++ rest.1, rest.2)

/-- Model of `parseArrayStream`: the events it emits through its
callbacks and its outcome (`.ok` result or thrown error). -/
def parseArrayStreamM (content : List Char) (hasPartial : Bool) :
    List WEvent × Except WorkerError (List JsonValue) :=
  let total := content.length
  let trimmed := trimChars content
  if ¬ (trimmed.head? = some '[' ∧ trimmed.getLast? = some ']') then
    ([], .error .arrayStructural)
  else
    let innerContent := trimChars ((trimmed.drop 1).dropLast)
    if innerContent = [] then ([], .ok [])
    else
      let arrayItems := scanItems innerContent
      let bs := max 1 (arrayItems.length / 10)
      let batch := batchLoop total (innerContent.length - 1) arrayItems.length bs
        hasPartial arrayItems.length 0 [] arrayItems
      (scanProgress total innerContent.length ++ batch.1 ++ [.progress 100 total total],
        .ok batch.2)

/-- Progress events of the non-array chunked loop of `parseJsonStream`:
one per 50000-character chunk, with fraction `(processed / total) * 80`. -/
def chunkProgress (total : Nat) : List WEvent :=
  (List.range ((total + 49999) / 50000)).map (fun k =>
    let processed := min (k * 50000 + 50000) total
    .progress ((processed : Rat) / (total : Rat) * 80) processed total)

/-- Model of `parseJsonStream`: route to the array path when the
trimmed content starts with `[`, otherwise chunked progress followed by
a whole-document `JSON.parse`. -/
def parseJsonStreamM (content : List Char) (hasPartial : Bool) :
    List WEvent × Except WorkerError JsonValue :=
  let total := content.length
  let trimmed := trimChars content
  if trimmed.head? = some '[' then
    let r := parseArrayStreamM content hasPartial
    (r.1, r.2.map .arr)
  else
    match jsonParse content with
    | some v => (chunkProgress total ++ [.progress 100 total total], .ok v)
    | none => (chunkProgress total, .error .docParseFailure)

/-- Model of the worker's `onmessage` handler for a `parse` message:
the full ordered event stream posted back to the host.  `isArray` is
the host's `looksLikeArray` flag; it only selects whether the
`onPartial` callback is passed. -/
def runWorker (content : List Char) (isArray : Bool) : List WEvent :=
  let r := parseJsonStreamM content isArray
  r.1 ++ [match r.2 with
    | .ok v => .complete v none
    | .error e => .complete .null (some e)]

/-- The fractions of the progress events in a stream, in order. -/
def progressFractions (evts : List WEvent) : List Rat :=
  evts.filterMap (fun e => match e with
    | .progress fr _ _ => some fr
    | _ => none)

/-- The counts of the partial events in a stream, in order. -/
def partialCounts (evts : List WEvent) : List Nat :=
  evts.filterMap (fun e => match e with
    | .partialEv _ c => some c
    | _ => none)

/-- The snapshots of the partial events in a stream, in order. -/
def partialSnapshots (evts : List WEvent) : List (List JsonValue) :=
  evts.filterMap (fun e => match e with
    | .partialEv items _ => some items
    | _ => none)

/-- The number of decoded items reported by the terminal completion
event, when it carries an array. -/
def resultCount (evts : List WEvent) : Option Nat :=
  match evts.getLast? with
  | some (.complete (.arr items) _) => some items.length
  | _ => none

/-- The comma-delimited top-level spans the chunk scanner finds in the
interior of a top-level-array input (the `arrayItems` list of
`parseArrayStream`). -/
def topLevelSpans (content : List Char) : List (List Char) :=
  scanItems (trimChars (((trimChars content).drop 1).dropLast))

/-- The error field of the terminal completion event, if any. -/
def completionError (evts : List WEvent) : Option WorkerError :=
  match evts.getLast? with
  | some (.complete _ (some e)) => some e
  | _ => none

/-- The data field of the terminal completion event, if any. -/
def completionData (evts : List WEvent) : Option JsonValue :=
  match evts.getLast? with
  | some (.complete v _) => some v
  | _ => none

/-! ## Schema inference (`inferJsonSchema` module) -/

/-- A `SchemaProperty` node: the `type` tag, optional `properties`
(object kind), optional `items` (array kind), optional example value
(primitive kinds; the source field is called `example`, a reserved word
here, so it is named `exampleVal`).  The source's `nullable` field is
never assigned by `inferPropertySchema` and is omitted. -/
inductive SchemaProperty where
  | mk (type : String) (properties : Option (List (String × SchemaProperty)))
      (items : Option SchemaProperty) (exampleVal : Option JsonValue) : SchemaProperty

/-- The `type` tag of a schema node. -/
def SchemaProperty.type : SchemaProperty → String
  | .mk t _ _ _ => t

/-- The `properties` map of a schema node. -/
def SchemaProperty.properties : SchemaProperty → Option (List (String × SchemaProperty))
  | .mk _ p _ _ => p

/-- The `items` schema of a schema node. -/
def SchemaProperty.items : SchemaProperty → Option SchemaProperty
  | .mk _ _ i _ => i

/-- The `example` value of a schema node. -/
def SchemaProperty.exampleVal : SchemaProperty → Option JsonValue
  | .mk _ _ _ e => e

/-- Model of `getType`: the runtime-type dispatch of the source
(`null`, `Array.isArray`, `typeof === "object"`, `Number.isInteger`
splitting `integer` from `number`, and `typeof` for the rest). -/
def getType : JsonValue → String
  | .null => "null"
  | .arr _ => "array"
  | .obj _ => "object"
  | .num q => if q.den = 1 then "integer" else "number"
  | .bool _ => "boolean"
  | .str _ => "string"

/-- The primitive kinds that capture an example value
(`["string", "number", "integer", "boolean"].includes(type)`). -/
def isPrimitiveType (t : String) : Bool :=
  t = "string" || t = "number" || t = "integer" || t = "boolean"

mutual

/-- Model of `inferPropertySchema`: `type` from `getType`; for arrays
`items` from element `[0]` only (empty array gives `type: "unknown"`);
for objects one recursive property per field in iteration order
(`inferProps` is the `Object.entries` loop); an example value exactly
for primitive kinds. -/
def inferPropertySchema : JsonValue → SchemaProperty
  | .null => .mk "null" none none none
  | .bool b => .mk "boolean" none none (some (.bool b))
  | .num q => .mk (if q.den = 1 then "integer" else "number") none none (some (.num q))
  | .str s => .mk "string" none none (some (.str s))
  | .arr [] => .mk "array" none (some (.mk "unknown" none none none)) none
  | .arr (x :: _) => .mk "array" none (some (inferPropertySchema x)) none
  | .obj fs => .mk "object" (some (inferProps fs)) none none

/-- The `for (const [key, val] of Object.entries(value))` loop of
`inferPropertySchema`. -/
def inferProps : List (String × JsonValue) → List (String × SchemaProperty)
  | [] => []
  | (k, v) :: rest => (k, inferPropertySchema v) :: inferProps rest

end

mutual

/-- Deep structural equality of decoded values (the "deep equality" of
the testable-properties section). -/
def JsonValue.deepEq : JsonValue → JsonValue → Bool
  | .null, .null => true
  | .bool a, .bool b => a == b
  | .num a, .num b => a == b
  | .str a, .str b => a == b
  | .arr a, .arr b => jsonListEq a b
  | .obj a, .obj b => jsonFieldsEq a b
  | _, _ => false

def jsonListEq : List JsonValue → List JsonValue → Bool
  | [], [] => true
  | a :: as, b :: bs => JsonValue.deepEq a b && jsonListEq as bs
  | _, _ => false

def jsonFieldsEq : List (String × JsonValue) → List (String × JsonValue) → Bool
  | [], [] => true
  | (k1, v1) :: as, (k2, v2) :: bs => k1 == k2 && JsonValue.deepEq v1 v2 && jsonFieldsEq as bs
  | _, _ => false

end

/-- Deep equality of optional example values. -/
def exampleEq : Option JsonValue → Option JsonValue → Bool
  | none, none => true
  | some a, some b => JsonValue.deepEq a b
  | _, _ => false

mutual

/-- Deep structural equality of schema trees. -/
def SchemaProperty.deepEq : SchemaProperty → SchemaProperty → Bool
  | .mk t1 p1 i1 e1, .mk t2 p2 i2 e2 =>
    t1 == t2 && schemaPropsEq p1 p2 && schemaItemsEq i1 i2 && exampleEq e1 e2

def schemaPropsEq :
    Option (List (String × SchemaProperty)) → Option (List (String × SchemaProperty)) → Bool
  | none, none => true
  | some l1, some l2 => schemaFieldsEq l1 l2
  | _, _ => false

def schemaItemsEq : Option SchemaProperty → Option SchemaProperty → Bool
  | none, none => true
  | some a, some b => SchemaProperty.deepEq a b
  | _, _ => false

def schemaFieldsEq :
    List (String × SchemaProperty) → List (String × SchemaProperty) → Bool
  | [], [] => true
  | (k1, s1) :: as, (k2, s2) :: bs => k1 == k2 && SchemaProperty.deepEq s1 s2 && schemaFieldsEq as bs
  | _, _ => false

end

/-! ## Decidable equality (hand-written, the inductives are nested) -/

mutual

def jvDecEq : (a b : JsonValue) → Decidable (a = b)
  | .null, .null => isTrue rfl
  | .bool a, .bool b =>
    match decEq a b with
    | isTrue h => isTrue (by rw [h])
    | isFalse h => isFalse (by intro c; injection c; contradiction)
  | .num a, .num b =>
    match decEq a b with
    | isTrue h => isTrue (by rw [h])
    | isFalse h => isFalse (by intro c; injection c; contradiction)
  | .str a, .str b =>
    match decEq a b with
    | isTrue h => isTrue (by rw [h])
    | isFalse h => isFalse (by intro c; injection c; contradiction)
  | .arr a, .arr b =>
    match jvListDecEq a b with
    | isTrue h => isTrue (by rw [h])
    | isFalse h => isFalse (by intro c; injection c; contradiction)
  | .obj a, .obj b =>
    match jvFieldsDecEq a b with
    | isTrue h => isTrue (by rw [h])
    | isFalse h => isFalse (by intro c; injection c; contradiction)
  | .null, .bool _ => isFalse (fun h => JsonValue.noConfusion h)
  | .null, .num _ => isFalse (fun h => JsonValue.noConfusion h)
  | .null, .str _ => isFalse (fun h => JsonValue.noConfusion h)
  | .null, .arr _ => isFalse (fun h => JsonValue.noConfusion h)
  | .null, .obj _ => isFalse (fun h => JsonValue.noConfusion h)
  | .bool _, .null => isFalse (fun h => JsonValue.noConfusion h)
  | .bool _, .num _ => isFalse (fun h => JsonValue.noConfusion h)
  | .bool _, .str _ => isFalse (fun h => JsonValue.noConfusion h)
  | .bool _, .arr _ => isFalse (fun h => JsonValue.noConfusion h)
  | .bool _, .obj _ => isFalse (fun h => JsonValue.noConfusion h)
  | .num _, .null => isFalse (fun h => JsonValue.noConfusion h)
  | .num _, .bool _ => isFalse (fun h => JsonValue.noConfusion h)
  | .num _, .str _ => isFalse (fun h => JsonValue.noConfusion h)
  | .num _, .arr _ => isFalse (fun h => JsonValue.noConfusion h)
  | .num _, .obj _ => isFalse (fun h => JsonValue.noConfusion h)
  | .str _, .null => isFalse (fun h => JsonValue.noConfusion h)
  | .str _, .bool _ => isFalse (fun h => JsonValue.noConfusion h)
  | .str _, .num _ => isFalse (fun h => JsonValue.noConfusion h)
  | .str _, .arr _ => isFalse (fun h => JsonValue.noConfusion h)
  | .str _, .obj _ => isFalse (fun h => JsonValue.noConfusion h)
  | .arr _, .null => isFalse (fun h => JsonValue.noConfusion h)
  | .arr _, .bool _ => isFalse (fun h => JsonValue.noConfusion h)
  | .arr _, .num _ => isFalse (fun h => JsonValue.noConfusion h)
  | .arr _, .str _ => isFalse (fun h => JsonValue.noConfusion h)
  | .arr _, .obj _ => isFalse (fun h => JsonValue.noConfusion h)
  | .obj _, .null => isFalse (fun h => JsonValue.noConfusion h)
  | .obj _, .bool _ => isFalse (fun h => JsonValue.noConfusion h)
  | .obj _, .num _ => isFalse (fun h => JsonValue.noConfusion h)
  | .obj _, .str _ => isFalse (fun h => JsonValue.noConfusion h)
  | .obj _, .arr _ => isFalse (fun h => JsonValue.noConfusion h)

def jvListDecEq : (a b : List JsonValue) → Decidable (a = b)
  | [], [] => isTrue rfl
  | [], _ :: _ => isFalse (fun h => List.noConfusion h)
  | _ :: _, [] => isFalse (fun h => List.noConfusion h)
  | a :: as, b :: bs =>
    match jvDecEq a b, jvListDecEq as bs with
    | isTrue h1, isTrue h2 => isTrue (by rw [h1, h2])
    | isFalse h1, _ => isFalse (by intro c; injection c; contradiction)
    | _, isFalse h2 => isFalse (by intro c; injection c; contradiction)

def jvFieldsDecEq : (a b : List (String × JsonValue)) → Decidable (a = b)
  | [], [] => isTrue rfl
  | [], _ :: _ => isFalse (fun h => List.noConfusion h)
  | _ :: _, [] => isFalse (fun h => List.noConfusion h)
  | (k1, v1) :: as, (k2, v2) :: bs =>
    match decEq k1 k2, jvDecEq v1 v2, jvFieldsDecEq as bs with
    | isTrue h0, isTrue h1, isTrue h2 => isTrue (by rw [h0, h1, h2])
    | isFalse h0, _, _ =>
      isFalse (by intro c; injection c with c1 c2; injection c1; contradiction)
    | _, isFalse h1, _ =>
      isFalse (by intro c; injection c with c1 c2; injection c1; contradiction)
    | _, _, isFalse h2 => isFalse (by intro c; injection c; contradiction)

end

instance : DecidableEq JsonValue := jvDecEq

mutual

def spDecEq : (a b : SchemaProperty) → Decidable (a = b)
  | .mk t1 p1 i1 e1, .mk t2 p2 i2 e2 =>
    match decEq t1 t2, spOptFieldsDecEq p1 p2, spOptDecEq i1 i2, decEq e1 e2 with
    | isTrue h0, isTrue h1, isTrue h2, isTrue h3 => isTrue (by rw [h0, h1, h2, h3])
    | isFalse h0, _, _, _ => isFalse (by intro c; injection c; contradiction)
    | _, isFalse h1, _, _ => isFalse (by intro c; injection c; contradiction)
    | _, _, isFalse h2, _ => isFalse (by intro c; injection c; contradiction)
    | _, _, _, isFalse h3 => isFalse (by intro c; injection c; contradiction)

def spOptDecEq : (a b : Option SchemaProperty) → Decidable (a = b)
  | none, none => isTrue rfl
  | none, some _ => isFalse (fun h => Option.noConfusion h)
  | some _, none => isFalse (fun h => Option.noConfusion h)
  | some a, some b =>
    match spDecEq a b with
    | isTrue h => isTrue (by rw [h])
    | isFalse h => isFalse (by intro c; injection c; contradiction)

def spOptFieldsDecEq :
    (a b : Option (List (String × SchemaProperty))) → Decidable (a = b)
  | none, none => isTrue rfl
  | none, some _ => isFalse (fun h => Option.noConfusion h)
  | some _, none => isFalse (fun h => Option.noConfusion h)
  | some a, some b =>
    match spFieldsDecEq a b with
    | isTrue h => isTrue (by rw [h])
    | isFalse h => isFalse (by intro c; injection c; contradiction)

def spFieldsDecEq : (a b : List (String × SchemaProperty)) → Decidable (a = b)
  | [], [] => isTrue rfl
  | [], _ :: _ => isFalse (fun h => List.noConfusion h)
  | _ :: _, [] => isFalse (fun h => List.noConfusion h)
  | (k1, s1) :: as, (k2, s2) :: bs =>
    match decEq k1 k2, spDecEq s1 s2, spFieldsDecEq as bs with
    | isTrue h0, isTrue h1, isTrue h2 => isTrue (by rw [h0, h1, h2])
    | isFalse h0, _, _ =>
      isFalse (by intro c; injection c with c1 c2; injection c1; contradiction)
    | _, isFalse h1, _ =>
      isFalse (by intro c; injection c with c1 c2; injection c1; contradiction)
    | _, _, isFalse h2 => isFalse (by intro c; injection c; contradiction)

end

instance : DecidableEq SchemaProperty := spDecEq

/-! ## Invariant checkers used by the claims -/

mutual

/-- Every node of a schema tree has an example value exactly when its
kind is primitive. -/
def exampleInv : SchemaProperty → Bool
  | .mk t p i e => (e.isSome == isPrimitiveType t) && exampleInvProps p && exampleInvItems i

def exampleInvProps : Option (List (String × SchemaProperty)) → Bool
  | none => true
  | some l => exampleInvFields l

def exampleInvFields : List (String × SchemaProperty) → Bool
  | [] => true
  | (_, s) :: rest => exampleInv s && exampleInvFields rest

def exampleInvItems : Option SchemaProperty → Bool
  | none => true
  | some s => exampleInv s

end

/-- The partial-event guarantees of one event stream: snapshots form a
chain of prefix-extensions, counts are non-decreasing, and each count
is its snapshot's length. -/
def GoodPartials (evts : List WEvent) : Prop :=
  List.Chain' (fun a b => ∃ t, b = a ++ t) (partialSnapshots evts) ∧
  List.Chain' (· ≤ ·) (partialCounts evts) ∧
  partialCounts evts = (partialSnapshots evts).map List.length

/-! ## Scanner invariants and parser-consumption predicates (for claim C6) -/

/-- Every character of the text is whitespace. -/
def allWs (w : List Char) : Prop := ∀ c ∈ w, isWs c = true

/-- The first character, if any, is not whitespace. -/
def headNonWs (t : List Char) : Prop := ∀ c, t.head? = some c → isWs c = false

/-- The last character, if any, is not whitespace. -/
def lastNonWs (t : List Char) : Prop := ∀ c, t.getLast? = some c → isWs c = false

/-- A character that the splitter never reacts to outside a string. -/
def inertCh (c : Char) : Prop :=
  c ≠ '"' ∧ c ≠ '{' ∧ c ≠ '}' ∧ c ≠ '[' ∧ c ≠ ']' ∧ c ≠ ','

instance (c : Char) : Decidable (inertCh c) :=
  inferInstanceAs (Decidable (_ ∧ _ ∧ _ ∧ _ ∧ _ ∧ _))

/-- Scanning the text from any non-string state with non-negative
depths appends every character and returns to the same state — the text
of one complete JSON value is invisible to the top-level splitter. -/
def SplitInv (t : List Char) : Prop :=
  ∀ (b k : Int), 0 ≤ b → 0 ≤ k → ∀ acc cur,
    splitFold ⟨b, k, false, false⟩ acc cur t = (⟨b, k, false, false⟩, acc, cur ++ t)

/-- Like `SplitInv` but only at strictly positive combined depth — the
interior of an object or array, whose commas are protected by the
enclosing brace/bracket. -/
def PosInv (t : List Char) : Prop :=
  ∀ (b k : Int), 0 ≤ b → 0 ≤ k → ¬(b = 0 ∧ k = 0) → ∀ acc cur,
    splitFold ⟨b, k, false, false⟩ acc cur t = (⟨b, k, false, false⟩, acc, cur ++ t)

/-- Scanning the raw interior of a string literal from the in-string
state appends every character and stays in the string. -/
def StrInv (t : List Char) : Prop :=
  ∀ (b k : Int) acc cur,
    splitFold ⟨b, k, true, false⟩ acc cur t = (⟨b, k, true, false⟩, acc, cur ++ t)

/-- Text that can safely follow a number literal without extending it:
its first character, if any, is not a digit, `.`, `e` or `E`. -/
def NumSafe (r : List Char) : Prop :=
  ∀ c, r.head? = some c → isDigitCh c = false ∧ c ≠ '.' ∧ c ≠ 'e' ∧ c ≠ 'E'

/-- The chunk scanner splits `mid` (the trimmed interior of a JSON
array) into exactly the element value texts, in order, and each decodes
to the corresponding element value. -/
def ElemsPayload (mid : List Char) (vs : List JsonValue) : Prop :=
  ∃ cores lastCore,
    (∀ acc cur, allWs cur →
      ∃ lastSeg, splitFold ⟨0, 0, false, false⟩ acc cur mid =
          (⟨0, 0, false, false⟩, acc ++ cores, lastSeg) ∧
        trimChars lastSeg = lastCore) ∧
    lastCore ≠ [] ∧
    (cores ++ [lastCore]).map (fun s => jsonParse s) = vs.map some

/-- Consumption/locality contract of `parseRaw` at a given fuel. -/
def RawP (f : Nat) : Prop :=
  ∀ cs v rest, parseRaw f cs = some (v, rest) →
    ∃ t, cs = t ++ rest ∧ t ≠ [] ∧ headNonWs t ∧ lastNonWs t ∧ SplitInv t ∧
      (∀ c, t.head? = some c → c ≠ ']') ∧
      ∀ f' r', 4 * t.length + 1 ≤ f' → NumSafe r' → parseRaw f' (t ++ r') = some (v, r')

/-- Consumption/locality contract of `parseVal` at a given fuel. -/
def ValP (f : Nat) : Prop :=
  ∀ cs v rest, parseVal f cs = some (v, rest) →
    ∃ w t, cs = w ++ (t ++ rest) ∧ allWs w ∧ t ≠ [] ∧ headNonWs t ∧ lastNonWs t ∧
      SplitInv t ∧
      (∀ c, t.head? = some c → c ≠ ']') ∧
      ∀ f' w' r', allWs w' → 4 * t.length + 2 ≤ f' → NumSafe r' →
        parseVal f' (w' ++ (t ++ r')) = some (v, r')

/-- Consumption/locality contract of `parseArrBody` at a given fuel. -/
def ArrBP (f : Nat) : Prop :=
  ∀ cs v rest, parseArrBody f cs = some (v, rest) →
    ∃ t, cs = t ++ rest ∧
      ((∃ w, v = .arr [] ∧ t = w ++ [']'] ∧ allWs w) ∨
       (∃ wpre mid wend vs, v = .arr vs ∧ t = wpre ++ (mid ++ (wend ++ [']'])) ∧
          allWs wpre ∧ allWs wend ∧ mid ≠ [] ∧ headNonWs mid ∧ lastNonWs mid ∧
          PosInv mid ∧ ElemsPayload mid vs)) ∧
      ∀ f' r', 4 * t.length + 1 ≤ f' → parseArrBody f' (t ++ r') = some (v, r')

/-- Consumption/locality contract of `parseElems` at a given fuel. -/
def ElemsP (f : Nat) : Prop :=
  ∀ cs vs rest, parseElems f cs = some (vs, rest) →
    ∃ wpre mid wend, cs = wpre ++ (mid ++ (wend ++ (']' :: rest))) ∧
      allWs wpre ∧ allWs wend ∧ mid ≠ [] ∧ headNonWs mid ∧ lastNonWs mid ∧
      (∀ c, mid.head? = some c → c ≠ ']') ∧
      PosInv mid ∧ ElemsPayload mid vs ∧
      ∀ f' r', 4 * (wpre.length + mid.length + wend.length + 1) ≤ f' →
        parseElems f' (wpre ++ (mid ++ (wend ++ (']' :: r')))) = some (vs, r')

/-- Consumption/locality contract of `parseObjBody` at a given fuel. -/
def ObjBP (f : Nat) : Prop :=
  ∀ cs v rest, parseObjBody f cs = some (v, rest) →
    ∃ inner, cs = inner ++ ('}' :: rest) ∧ PosInv inner ∧
      ∀ f' r', 4 * (inner.length + 1) + 1 ≤ f' →
        parseObjBody f' (inner ++ ('}' :: r')) = some (v, r')

/-- Consumption/locality contract of `parseFields` at a given fuel. -/
def FieldsP (f : Nat) : Prop :=
  ∀ cs fs rest, parseFields f cs = some (fs, rest) →
    ∃ inner, cs = inner ++ ('}' :: rest) ∧ PosInv inner ∧
      (∃ wf inner₀, inner = wf ++ ('"' :: inner₀) ∧ allWs wf) ∧
      ∀ f' r', 4 * (inner.length + 1) ≤ f' →
        parseFields f' (inner ++ ('}' :: r')) = some (fs, r')

/-! ## Helper lemmas -/

mutual

theorem JsonValue.deepEq_refl : (v : JsonValue) → JsonValue.deepEq v v = true
  | .null => rfl
  | .bool b => by simp [JsonValue.deepEq]
  | .num q => by simp [JsonValue.deepEq]
  | .str s => by simp [JsonValue.deepEq]
  | .arr a =>
    have h := jsonListEq_refl a
    by simp [JsonValue.deepEq, h]
  | .obj a =>
    have h := jsonFieldsEq_refl a
    by simp [JsonValue.deepEq, h]

theorem jsonListEq_refl : (l : List JsonValue) → jsonListEq l l = true
  | [] => rfl
  | a :: as =>
    have h1 := JsonValue.deepEq_refl a
    have h2 := jsonListEq_refl as
    by simp [jsonListEq, h1, h2]

theorem jsonFieldsEq_refl : (l : List (String × JsonValue)) → jsonFieldsEq l l = true
  | [] => rfl
  | (k, v) :: rest =>
    have h1 := JsonValue.deepEq_refl v
    have h2 := jsonFieldsEq_refl rest
    by simp [jsonFieldsEq, h1, h2]

end

mutual

theorem SchemaProperty.deepEqRefl : (s : SchemaProperty) → SchemaProperty.deepEq s s = true
  | .mk t p i e =>
    have hp := schemaPropsEq_refl p
    have hi := schemaItemsEq_refl i
    have he : exampleEq e e = true :=
      match e with
      | none => rfl
      | some v => by simp [exampleEq, JsonValue.deepEq_refl v]
    by rw [SchemaProperty.deepEq]; simp [hp, hi, he]

theorem schemaPropsEq_refl :
    (p : Option (List (String × SchemaProperty))) → schemaPropsEq p p = true
  | none => by rw [schemaPropsEq]
  | some l =>
    have h := schemaFieldsEq_refl l
    by rw [schemaPropsEq]; exact h

theorem schemaItemsEq_refl : (i : Option SchemaProperty) → schemaItemsEq i i = true
  | none => by rw [schemaItemsEq]
  | some s =>
    have h := SchemaProperty.deepEqRefl s
    by rw [schemaItemsEq]; exact h

theorem schemaFieldsEq_refl :
    (l : List (String × SchemaProperty)) → schemaFieldsEq l l = true
  | [] => by rw [schemaFieldsEq]
  | (k, s) :: rest =>
    have h1 := SchemaProperty.deepEqRefl s
    have h2 := schemaFieldsEq_refl rest
    by rw [schemaFieldsEq]; simp [h1, h2]

end

mutual

theorem exampleInv_infer : (v : JsonValue) → exampleInv (inferPropertySchema v) = true
  | .null => rfl
  | .bool b => rfl
  | .num q => by
    by_cases h : q.den = 1 <;>
      simp [inferPropertySchema, exampleInv, exampleInvProps, exampleInvItems, isPrimitiveType, h]
  | .str s => rfl
  | .arr [] => rfl
  | .arr (x :: _) =>
    have h := exampleInv_infer x
    by simp [inferPropertySchema, exampleInv, exampleInvProps, exampleInvItems, isPrimitiveType, h]
  | .obj fs =>
    have h := exampleInvFields_inferProps fs
    by simp [inferPropertySchema, exampleInv, exampleInvProps, exampleInvItems, isPrimitiveType, h]

theorem exampleInvFields_inferProps :
    (fs : List (String × JsonValue)) → exampleInvFields (inferProps fs) = true
  | [] => rfl
  | (k, v) :: rest =>
    have h1 := exampleInv_infer v
    have h2 := exampleInvFields_inferProps rest
    by simp [inferProps, exampleInvFields, h1, h2]

end

/-! ## Claims -/

/-- Claim C1, counterexample.  The input whose trimmed form is
`\x7b"a":1\x7d` sent with `looksLikeArray = true` does NOT fail: the worker
ignores the host flag when choosing the decode path, re-checks the
prefix itself, takes the whole-document path, and completes without an
error, returning the decoded object. -/
theorem c1_counterexample :
    completionError (runWorker ("\x7b\"a\":1\x7d".toList) true) = none ∧
    completionData (runWorker ("\x7b\"a\":1\x7d".toList) true) =
      some (.obj [("a", .num 1)]) := by
  constructor <;> decide

theorem completionError_runWorker (content : List Char) (isArray : Bool) :
    completionError (runWorker content isArray) =
      (match (parseJsonStreamM content isArray).2 with
        | .ok _ => none
        | .error e => some e) := by
  show completionError ((parseJsonStreamM content isArray).1 ++
      [match (parseJsonStreamM content isArray).2 with
        | .ok v => WEvent.complete v none
        | .error e => WEvent.complete .null (some e)]) = _
  rcases (parseJsonStreamM content isArray).2 with e | v
  · unfold completionError
    rw [List.getLast?_concat]
  · unfold completionError
    rw [List.getLast?_concat]

theorem arrayStream_ok (content : List Char) (hasPartial : Bool)
    (h1 : (trimChars content).head? = some '[')
    (h2 : (trimChars content).getLast? = some ']') :
    ∃ items, (parseArrayStreamM content hasPartial).2 = .ok items := by
  simp only [parseArrayStreamM]
  rw [if_neg (by simp [h1, h2])]
  by_cases hemp : trimChars (((trimChars content).drop 1).dropLast) = []
  · rw [if_pos hemp]
    exact ⟨[], rfl⟩
  · rw [if_neg hemp]
    exact ⟨_, rfl⟩

/-- Claim C1, amended.  `looksLikeArray` does not determine the decode
path (it only selects whether partial snapshots are emitted); the
worker routes on its own prefix check of the trimmed text.  A
structural error is carried in the CompletionEvent exactly when — if
and only if — the trimmed text starts with `[` but does not end with
`]`, for either value of the flag; on such bad framing the whole event
stream is the single error completion. -/
theorem c1_amended (content : List Char) (isArray : Bool) :
    (completionError (runWorker content isArray) = some WorkerError.arrayStructural ↔
      ((trimChars content).head? = some '[' ∧
        ¬ (trimChars content).getLast? = some ']')) ∧
    ((trimChars content).head? = some '[' →
      ¬ (trimChars content).getLast? = some ']' →
      runWorker content isArray = [.complete .null (some .arrayStructural)]) := by
  have hbad : ∀ (hh1 : (trimChars content).head? = some '['),
      ¬ (trimChars content).getLast? = some ']' →
      runWorker content isArray = [.complete .null (some .arrayStructural)] := by
    intro hh1 hh2
    simp [runWorker, parseJsonStreamM, parseArrayStreamM, hh1, hh2, Except.map]
  refine ⟨?_, hbad⟩
  rw [completionError_runWorker]
  by_cases h1 : (trimChars content).head? = some '['
  · by_cases h2 : (trimChars content).getLast? = some ']'
    · obtain ⟨items, hok⟩ := arrayStream_ok content isArray h1 h2
      have hpj : (parseJsonStreamM content isArray).2 = .ok (.arr items) := by
        simp only [parseJsonStreamM]
        rw [if_pos h1]
        show ((parseArrayStreamM content isArray).2.map JsonValue.arr :
          Except WorkerError JsonValue) = _
        rw [hok]
        rfl
      rw [hpj]
      simp [h2]
    · have hpj : (parseJsonStreamM content isArray).2 = .error .arrayStructural := by
        simp [parseJsonStreamM, parseArrayStreamM, h1, h2, Except.map]
      rw [hpj]
      simp [h1, h2]
  · constructor
    · intro hlhs
      rcases hjp : jsonParse content with _ | v
      · have hpj : (parseJsonStreamM content isArray).2 = .error .docParseFailure := by
          simp only [parseJsonStreamM]
          rw [if_neg h1, hjp]
        rw [hpj] at hlhs
        simp at hlhs
      · have hpj : (parseJsonStreamM content isArray).2 = .ok v := by
          simp only [parseJsonStreamM]
          rw [if_neg h1, hjp]
        rw [hpj] at hlhs
        simp at hlhs
    · rintro ⟨hh1, -⟩
      exact absurd hh1 h1

/-- Witness for `c1_amended` at the concrete input `[1`. -/
theorem c1_amended_witness :
    completionError (runWorker ("[1".toList) false) = some WorkerError.arrayStructural ∧
    runWorker ("[1".toList) false = [.complete .null (some .arrayStructural)] :=
  ⟨(c1_amended ("[1".toList) false).1.mpr ⟨by decide, by decide⟩,
   (c1_amended ("[1".toList) false).2 (by decide) (by decide)⟩

/-- Claim C5.  A top-level separator is recognized only for a comma
seen with both nesting depths zero, outside a string, and with no
pending escape; consequently commas/braces/brackets inside a quoted
string never split, and the input `[\x7b"a":"x,\x7b\x7d[]y"\x7d,\x7b"a":2\x7d]`
decodes to exactly two elements, the first with field `a` equal to the
string `x,\x7b\x7d[]y`. -/
theorem c5_no_false_splits :
    (∀ (st : ScanSt) (c : Char), (scanStep st c).2 = true →
        c = ',' ∧ st.braceCount = 0 ∧ st.bracketCount = 0 ∧
          st.inString = false ∧ st.escapeNext = false) ∧
    completionData (runWorker ("[\x7b\"a\":\"x,\x7b\x7d[]y\"\x7d,\x7b\"a\":2\x7d]".toList) true) =
      some (.arr [.obj [("a", .str "x,\x7b\x7d[]y")], .obj [("a", .num 2)]]) ∧
    completionError (runWorker ("[\x7b\"a\":\"x,\x7b\x7d[]y\"\x7d,\x7b\"a\":2\x7d]".toList) true) =
      none := by
  refine ⟨?_, by decide, by decide⟩
  rintro ⟨b, k, ins, esc⟩ c h
  cases esc with
  | true => simp [scanStep] at h
  | false =>
    by_cases hb : c = '\\' ∧ ins = true
    · simp [scanStep, hb.1, hb.2] at h
    · cases ins with
      | true =>
        by_cases hq : c = '"'
        · simp [scanStep, hq] at h
        · simp [scanStep, hq] at h
          simp_all
      | false =>
        by_cases hq : c = '"'
        · simp [scanStep, hq] at h
        · simp only [scanStep, if_neg hq] at h
          by_cases h1 : c = '{' <;> by_cases h2 : c = '}' <;>
            by_cases h3 : c = '[' <;> by_cases h4 : c = ']' <;>
              simp_all [scanStep]
          split at h
          · rename_i hcond
            exact ⟨hcond.1.1, hcond.1.2, hcond.2⟩
          · simp at h

/-- Witness for `c5_no_false_splits` at the initial state and a comma. -/
theorem c5_no_false_splits_witness :
    (scanStep ScanSt.init ',').2 = true ∧
    (',' = ',' ∧ ScanSt.init.braceCount = 0 ∧ ScanSt.init.bracketCount = 0 ∧
      ScanSt.init.inString = false ∧ ScanSt.init.escapeNext = false) :=
  ⟨by decide, c5_no_false_splits.1 ScanSt.init ',' (by decide)⟩

/-- Claim C7.  `inferPropertySchema` derives the `items` schema of an
array from element `[0]` only; an empty array yields an `unknown`
items node; and for the value `[\x7b"a":1\x7d, \x7b"a":"s","b":true\x7d]` the
inferred `items` schema has exactly the field `a` of kind `integer`
(with example `1`) and no field `b`. -/
theorem c7_items_from_first_element :
    (∀ (v : JsonValue) (vs : List JsonValue),
        (inferPropertySchema (.arr (v :: vs))).items = some (inferPropertySchema v)) ∧
    (inferPropertySchema (.arr [])).items = some (.mk "unknown" none none none) ∧
    inferPropertySchema
        (.arr [.obj [("a", .num 1)], .obj [("a", .str "s"), ("b", .bool true)]]) =
      .mk "array" none
        (some (.mk "object" (some [("a", .mk "integer" none none (some (.num 1)))]) none none))
        none :=
  ⟨fun v vs => rfl, rfl, rfl⟩

/-- Claim C9.  Schema inference is a pure total function of the
decoded value: it is defined for every `JsonValue` (the Lean model is a
total function), and two runs on the same value produce deeply equal
schema trees. -/
theorem c9_inference_idempotent :
    ∀ v : JsonValue,
      SchemaProperty.deepEq (inferPropertySchema v) (inferPropertySchema v) = true :=
  fun v => SchemaProperty.deepEqRefl (inferPropertySchema v)

/-- Claim C10.  In every inferred schema the root node carries the
inferred value as its example exactly when its kind is primitive
(`string`, `number`, `integer`, `boolean`), and recursively every node
of the inferred tree has an example exactly when its kind is primitive
(so `null`, `unknown`, `array`, `object` nodes never carry one). -/
theorem c10_example_exactly_for_primitives :
    ∀ v : JsonValue,
      (inferPropertySchema v).exampleVal =
        (if isPrimitiveType (getType v) then some v else none) ∧
      exampleInv (inferPropertySchema v) = true := by
  intro v
  refine ⟨?_, exampleInv_infer v⟩
  cases v with
  | null => rfl
  | bool b => rfl
  | num q =>
    by_cases h : q.den = 1 <;>
      simp [inferPropertySchema, getType, isPrimitiveType, SchemaProperty.exampleVal, h]
  | str s => rfl
  | arr l => cases l <;> rfl
  | obj fs => rfl

/-- Claim C3, counterexample.  For the 3-element array input
`[\x7b"a":1\x7d,\x7b"b:2\x7d,\x7b"c":3\x7d]`, whose middle item has an unbalanced
quote, the run does complete without a fatal error but yields count 1,
not `N - 1 = 2`: the unbalanced quote leaves the scanner in its
in-string state, so the third item is absorbed into the failed span. -/
theorem c3_counterexample :
    completionError (runWorker ("[\x7b\"a\":1\x7d,\x7b\"b:2\x7d,\x7b\"c\":3\x7d]".toList) true) = none ∧
    resultCount (runWorker ("[\x7b\"a\":1\x7d,\x7b\"b:2\x7d,\x7b\"c\":3\x7d]".toList) true) = some 1 ∧
    resultCount (runWorker ("[\x7b\"a\":1\x7d,\x7b\"b:2\x7d,\x7b\"c\":3\x7d]".toList) true) ≠ some 2 := by
  refine ⟨by decide, by decide, by decide⟩

/-- Claim C3, amended.  Any input with valid outer framing completes
without a fatal error (single-item decode failures are swallowed), and
`count = N - 1` does hold when the unbalanced-quote item is the last
element, as in `[\x7b"a":1\x7d,\x7b"b":2\x7d,\x7b"c:3\x7d]` (count 2 of 3); when the
bad item occurs earlier the count can be smaller than `N - 1` because
the scanner absorbs the following items into the failed span. -/
theorem c3_amended (content : List Char) (hasPartial : Bool)
    (h1 : (trimChars content).head? = some '[')
    (h2 : (trimChars content).getLast? = some ']') :
    (∃ items, (parseArrayStreamM content hasPartial).2 = .ok items) ∧
    completionError (runWorker ("[\x7b\"a\":1\x7d,\x7b\"b\":2\x7d,\x7b\"c:3\x7d]".toList) true) = none ∧
    resultCount (runWorker ("[\x7b\"a\":1\x7d,\x7b\"b\":2\x7d,\x7b\"c:3\x7d]".toList) true) = some 2 := by
  refine ⟨?_, by decide, by decide⟩
  have hc : ¬¬((trimChars content).head? = some '[' ∧ (trimChars content).getLast? = some ']') := by
    simp [h1, h2]
  simp only [parseArrayStreamM]
  rw [if_neg hc]
  split
  · exact ⟨[], rfl⟩
  · exact ⟨_, rfl⟩

/-- Witness for `c3_amended` at the concrete input `[1,2]`. -/
theorem c3_amended_witness :
    (∃ items, (parseArrayStreamM ("[1,2]".toList) false).2 = .ok items) ∧
    completionError (runWorker ("[\x7b\"a\":1\x7d,\x7b\"b\":2\x7d,\x7b\"c:3\x7d]".toList) true) = none ∧
    resultCount (runWorker ("[\x7b\"a\":1\x7d,\x7b\"b\":2\x7d,\x7b\"c:3\x7d]".toList) true) = some 2 :=
  c3_amended ("[1,2]".toList) false (by decide) (by decide)

/-- Claim C4, counterexample.  For the input `[1,2,x,4]` (batch size 1,
the third span fails to decode) the worker emits two successive
PartialEvents with the same count 2, so `count` is not strictly
increasing across successive PartialEvents. -/
theorem c4_counterexample :
    partialCounts (runWorker ("[1,2,x,4]".toList) true) = [2, 2] ∧
    ¬ List.Chain' (· < ·) (partialCounts (runWorker ("[1,2,x,4]".toList) true)) := by
  have he : partialCounts (runWorker ("[1,2,x,4]".toList) true) = [2, 2] := by decide
  refine ⟨he, ?_⟩
  intro h
  rw [he, List.chain'_cons] at h
  exact absurd h.1 (by decide)

/-! ## Partial-event structure of the batch loop (for claim C4) -/

theorem partialSnapshots_append (a b : List WEvent) :
    partialSnapshots (a ++ b) = partialSnapshots a ++ partialSnapshots b :=
  List.filterMap_append a b _

theorem partialCounts_append (a b : List WEvent) :
    partialCounts (a ++ b) = partialCounts a ++ partialCounts b :=
  List.filterMap_append a b _

theorem progressFractions_append (a b : List WEvent) :
    progressFractions (a ++ b) = progressFractions a ++ progressFractions b :=
  List.filterMap_append a b _

theorem partialSnapshots_scanProgress (t l : Nat) :
    partialSnapshots (scanProgress t l) = [] := by
  simp only [partialSnapshots]
  rw [List.filterMap_eq_nil_iff]
  intro e he
  rcases List.mem_filterMap.mp he with ⟨i, -, hi⟩
  by_cases h : i % 10000 = 0
  · rw [if_pos h] at hi
    cases hi
    rfl
  · rw [if_neg h] at hi
    cases hi

theorem partialCounts_scanProgress (t l : Nat) :
    partialCounts (scanProgress t l) = [] := by
  simp only [partialCounts]
  rw [List.filterMap_eq_nil_iff]
  intro e he
  rcases List.mem_filterMap.mp he with ⟨i, -, hi⟩
  by_cases h : i % 10000 = 0
  · rw [if_pos h] at hi
    cases hi
    rfl
  · rw [if_neg h] at hi
    cases hi

theorem partialSnapshots_chunkProgress (t : Nat) :
    partialSnapshots (chunkProgress t) = [] := by
  simp only [partialSnapshots]
  rw [List.filterMap_eq_nil_iff]
  intro e he
  rcases List.mem_map.mp he with ⟨i, -, hi⟩
  subst hi
  rfl

theorem partialCounts_chunkProgress (t : Nat) :
    partialCounts (chunkProgress t) = [] := by
  simp only [partialCounts]
  rw [List.filterMap_eq_nil_iff]
  intro e he
  rcases List.mem_map.mp he with ⟨i, -, hi⟩
  subst hi
  rfl

theorem batchLoop_snapshots (total processed n bs : Nat) (hp : Bool) :
    ∀ (fuel : Nat) (rem : List (List Char)) (i : Nat) (items : List JsonValue),
      (∀ s ∈ partialSnapshots (batchLoop total processed n bs hp fuel i items rem).1,
          ∃ t, s = items ++ t) ∧
      List.Chain' (fun a b => ∃ t, b = a ++ t)
        (partialSnapshots (batchLoop total processed n bs hp fuel i items rem).1) ∧
      partialCounts (batchLoop total processed n bs hp fuel i items rem).1 =
        (partialSnapshots (batchLoop total processed n bs hp fuel i items rem).1).map
          List.length := by
  intro fuel
  induction fuel with
  | zero =>
    intro rem i items
    cases rem <;> simp [batchLoop, partialSnapshots, partialCounts]
  | succ fuel ih =>
    intro rem i items
    cases rem with
    | nil => simp [batchLoop, partialSnapshots, partialCounts]
    | cons hd tl =>
      rcases ih ((hd :: tl).drop bs) (i + bs) (items ++ ((hd :: tl).take bs).filterMap decodeItem)
        with ⟨ih1, ih2, ih3⟩
      simp only [batchLoop]
      simp only [partialSnapshots, partialCounts] at ih1 ih2 ih3 ⊢
      simp only [List.cons_append, List.filterMap_cons, List.filterMap_append]
      by_cases hc : (hp && decide
          ((items ++ List.filterMap decodeItem (List.take bs (hd :: tl))).length % (bs * 2) = 0))
          = true
      · rw [if_pos hc]
        simp only [List.filterMap_cons, List.filterMap_nil, List.nil_append,
          List.singleton_append]
        refine ⟨?_, ?_, ?_⟩
        · intro s hs
          rcases List.mem_cons.mp hs with h | h
          · exact ⟨_, h⟩
          · rcases ih1 s h with ⟨t, ht⟩
            exact ⟨_, by rw [ht, List.append_assoc]⟩
        · rw [List.chain'_cons']
          exact ⟨fun b hb => ih1 b (List.mem_of_mem_head? hb), ih2⟩
        · simp only [List.map_cons]
          rw [ih3]
      · rw [if_neg hc]
        simp only [List.filterMap_nil, List.nil_append]
        refine ⟨?_, ih2, ih3⟩
        intro s hs
        rcases ih1 s hs with ⟨t, ht⟩
        exact ⟨_, by rw [ht, List.append_assoc]⟩

theorem goodPartials_nil : GoodPartials [] := by
  refine ⟨?_, ?_, ?_⟩ <;> simp [partialSnapshots, partialCounts]

theorem goodPartials_of_empty (evts : List WEvent)
    (hs : partialSnapshots evts = []) (hc : partialCounts evts = []) :
    GoodPartials evts := by
  refine ⟨?_, ?_, ?_⟩ <;> simp [hs, hc]

theorem goodPartials_append_left (a b : List WEvent)
    (hs : partialSnapshots a = []) (hc : partialCounts a = [])
    (hgb : GoodPartials b) : GoodPartials (a ++ b) := by
  rcases hgb with ⟨g1, g2, g3⟩
  refine ⟨?_, ?_, ?_⟩
  · simpa [partialSnapshots_append, hs] using g1
  · simpa [partialCounts_append, hc] using g2
  · simp [partialSnapshots_append, partialCounts_append, hs, hc, g3]

theorem goodPartials_append_right (a b : List WEvent)
    (hs : partialSnapshots b = []) (hc : partialCounts b = [])
    (hga : GoodPartials a) : GoodPartials (a ++ b) := by
  rcases hga with ⟨g1, g2, g3⟩
  refine ⟨?_, ?_, ?_⟩
  · simpa [partialSnapshots_append, hs] using g1
  · simpa [partialCounts_append, hc] using g2
  · simp [partialSnapshots_append, partialCounts_append, hs, hc, g3]

theorem partialSnapshots_completeMatch (r : Except WorkerError JsonValue) :
    partialSnapshots [match r with
      | .ok v => WEvent.complete v none
      | .error e => WEvent.complete .null (some e)] = [] := by
  cases r <;> rfl

theorem partialCounts_completeMatch (r : Except WorkerError JsonValue) :
    partialCounts [match r with
      | .ok v => WEvent.complete v none
      | .error e => WEvent.complete .null (some e)] = [] := by
  cases r <;> rfl

theorem goodPartials_batchLoop (total processed n bs : Nat) (hp : Bool)
    (fuel : Nat) (rem : List (List Char)) (i : Nat) (items : List JsonValue) :
    GoodPartials (batchLoop total processed n bs hp fuel i items rem).1 := by
  rcases batchLoop_snapshots total processed n bs hp fuel rem i items with ⟨-, h2, h3⟩
  refine ⟨h2, ?_, h3⟩
  rw [h3, List.chain'_map]
  refine h2.imp ?_
  rintro a b ⟨t, rfl⟩
  simp

/-- Claim C4, amended.  For every run, successive PartialEvent
snapshots are prefix-extensions of each other (no item is retracted or
reordered), each count equals its snapshot's length, and counts are
non-decreasing — but not strictly increasing (see the
counterexample). -/
theorem c4_amended (content : List Char) (isArray : Bool) :
    List.Chain' (fun a b => ∃ t, b = a ++ t) (partialSnapshots (runWorker content isArray)) ∧
    List.Chain' (· ≤ ·) (partialCounts (runWorker content isArray)) ∧
    partialCounts (runWorker content isArray) =
      (partialSnapshots (runWorker content isArray)).map List.length := by
  have hmain : GoodPartials (runWorker content isArray) := by
    rw [runWorker]
    apply goodPartials_append_right
    · exact partialSnapshots_completeMatch _
    · exact partialCounts_completeMatch _
    · rw [parseJsonStreamM]
      by_cases hpath : (trimChars content).head? = some '['
      · rw [if_pos hpath]
        rw [parseArrayStreamM]
        by_cases hok : ¬((trimChars content).head? = some '[' ∧
            (trimChars content).getLast? = some ']')
        · rw [if_pos hok]
          exact goodPartials_nil
        · rw [if_neg hok]
          by_cases hemp : trimChars (((trimChars content).drop 1).dropLast) = []
          · rw [if_pos hemp]
            exact goodPartials_nil
          · rw [if_neg hemp]
            apply goodPartials_append_right
            · rfl
            · rfl
            · apply goodPartials_append_left _ _ (partialSnapshots_scanProgress _ _)
                (partialCounts_scanProgress _ _)
              exact goodPartials_batchLoop _ _ _ _ _ _ _ _ _
      · rw [if_neg hpath]
        cases jsonParse content with
        | none =>
          exact goodPartials_of_empty _ (partialSnapshots_chunkProgress _)
            (partialCounts_chunkProgress _)
        | some v =>
          apply goodPartials_append_right
          · rfl
          · rfl
          · exact goodPartials_of_empty _ (partialSnapshots_chunkProgress _)
              (partialCounts_chunkProgress _)
  exact hmain

/-! ## Item accounting of the batch loop (for claim C8) -/

theorem filterMap_full_length_iff {α β : Type} (f : α → Option β) :
    (l : List α) → ((l.filterMap f).length = l.length ↔ ∀ a ∈ l, (f a).isSome = true)
  | [] => by simp
  | a :: l => by
    rw [List.filterMap_cons]
    cases h : f a with
    | none =>
      have hle := List.length_filterMap_le f l
      simp only [List.length_cons, List.mem_cons]
      constructor
      · intro hlen
        exact absurd hlen (by omega)
      · intro hall
        have := hall a (Or.inl rfl)
        rw [h] at this
        cases this
    | some b =>
      simp only [List.length_cons, List.mem_cons]
      constructor
      · intro hlen
        intro x hx
        rcases hx with rfl | hx
        · rw [h]
          rfl
        · exact ((filterMap_full_length_iff f l).mp (by omega)) x hx
      · intro hall
        have := (filterMap_full_length_iff f l).mpr (fun x hx => hall x (Or.inr hx))
        omega

theorem batchLoop_items (total processed n bs : Nat) (hp : Bool) (hbs : 0 < bs) :
    ∀ (fuel : Nat) (rem : List (List Char)) (i : Nat) (items : List JsonValue),
      rem.length ≤ fuel →
      (batchLoop total processed n bs hp fuel i items rem).2 =
        items ++ rem.filterMap decodeItem := by
  intro fuel
  induction fuel with
  | zero =>
    intro rem i items hlen
    have : rem = [] := List.eq_nil_of_length_eq_zero (Nat.le_zero.mp hlen)
    subst this
    simp [batchLoop]
  | succ fuel ih =>
    intro rem i items hlen
    cases rem with
    | nil => simp [batchLoop]
    | cons hd tl =>
      simp only [batchLoop]
      rw [ih]
      · rw [List.append_assoc, ← List.filterMap_append, List.take_append_drop]
      · simp only [List.length_drop, List.length_cons]
        simp only [List.length_cons] at hlen
        omega

/-- Claim C8.  On any input with valid outer framing the run returns a
result whose item count is at most the number of comma-delimited
top-level spans found by the chunk scanner, with equality exactly when
every span decodes successfully. -/
theorem c8_count_le_spans (content : List Char) (hasPartial : Bool)
    (h1 : (trimChars content).head? = some '[')
    (h2 : (trimChars content).getLast? = some ']') :
    ∃ items, (parseArrayStreamM content hasPartial).2 = .ok items ∧
      items.length ≤ (topLevelSpans content).length ∧
      (items.length = (topLevelSpans content).length ↔
        ∀ s ∈ topLevelSpans content, (decodeItem s).isSome = true) := by
  have hc : ¬¬((trimChars content).head? = some '[' ∧
      (trimChars content).getLast? = some ']') := by simp [h1, h2]
  simp only [parseArrayStreamM]
  rw [if_neg hc]
  by_cases hemp : trimChars (((trimChars content).drop 1).dropLast) = []
  · rw [if_pos hemp]
    have hspans : topLevelSpans content = [] := by
      rw [topLevelSpans, hemp]
      rfl
    exact ⟨[], rfl, by simp [hspans]⟩
  · rw [if_neg hemp]
    refine ⟨_, rfl, ?_⟩
    have hbs : 0 < max 1 ((scanItems
        (trimChars (((trimChars content).drop 1).dropLast))).length / 10) :=
      Nat.lt_of_lt_of_le Nat.zero_lt_one (Nat.le_max_left _ _)
    have hitems := batchLoop_items content.length
      ((trimChars (((trimChars content).drop 1).dropLast)).length - 1)
      (scanItems (trimChars (((trimChars content).drop 1).dropLast))).length
      (max 1 ((scanItems (trimChars (((trimChars content).drop 1).dropLast))).length / 10))
      hasPartial hbs
      (scanItems (trimChars (((trimChars content).drop 1).dropLast))).length
      (scanItems (trimChars (((trimChars content).drop 1).dropLast))) 0 []
      (Nat.le_refl _)
    rw [hitems, List.nil_append]
    have hspans : topLevelSpans content =
        scanItems (trimChars (((trimChars content).drop 1).dropLast)) := rfl
    rw [hspans]
    exact ⟨List.length_filterMap_le _ _, filterMap_full_length_iff _ _⟩

/-- Witness for `c8_count_le_spans` at the concrete input `[1,2]`. -/
theorem c8_count_le_spans_witness :
    ∃ items, (parseArrayStreamM ("[1,2]".toList) false).2 = .ok items ∧
      items.length ≤ (topLevelSpans ("[1,2]".toList)).length ∧
      (items.length = (topLevelSpans ("[1,2]".toList)).length ↔
        ∀ s ∈ topLevelSpans ("[1,2]".toList), (decodeItem s).isSome = true) :=
  c8_count_le_spans ("[1,2]".toList) false (by decide) (by decide)

/-! ## Progress-event structure (for claim C2) -/

theorem progressFractions_completeMatch (r : Except WorkerError JsonValue) :
    progressFractions [match r with
      | .ok v => WEvent.complete v none
      | .error e => WEvent.complete .null (some e)] = [] := by
  cases r <;> rfl

theorem completionError_concat (evts : List WEvent) (v : JsonValue)
    (err : Option WorkerError) :
    completionError (evts ++ [.complete v err]) = err := by
  rw [completionError, List.getLast?_concat]
  cases err <;> rfl

theorem progressFractions_scanProgress (total len : Nat) :
    progressFractions (scanProgress total len) =
      (List.range len).filterMap (fun (i : Nat) =>
        if i % 10000 = 0 then some ((i : Rat) / (total : Rat) * 70) else none) := by
  rw [progressFractions, scanProgress, List.filterMap_filterMap]
  congr 1
  funext i
  by_cases h : i % 10000 = 0
  · rw [if_pos h, if_pos h]
    rfl
  · rw [if_neg h, if_neg h]
    rfl

theorem filterMap_always_some {α β : Type} (g : α → Option β) (f : α → β)
    (h : ∀ a, g a = some (f a)) : (l : List α) → l.filterMap g = l.map f
  | [] => rfl
  | a :: l => by
    rw [List.filterMap_cons, h a, List.map_cons, filterMap_always_some g f h l]

theorem progressFractions_chunkProgress (total : Nat) :
    progressFractions (chunkProgress total) =
      (List.range ((total + 49999) / 50000)).map (fun (k : Nat) =>
        ((min (k * 50000 + 50000) total : Nat) : Rat) / (total : Rat) * 80) := by
  rw [progressFractions, chunkProgress, List.filterMap_map]
  exact filterMap_always_some _ _ (fun k => rfl) _

theorem fracStep (t : Nat) (a b : Nat) (c : Rat) (hab : a ≤ b) (hc : 0 ≤ c) :
    (a : Rat) / (t : Rat) * c ≤ (b : Rat) / (t : Rat) * c := by
  apply mul_le_mul_of_nonneg_right _ hc
  rcases Nat.eq_zero_or_pos t with ht | ht
  · subst ht
    simp
  · have htq : (0 : Rat) < (t : Rat) := by exact_mod_cast ht
    exact (div_le_div_right htq).mpr (by exact_mod_cast hab)

theorem fracUpper (t a : Nat) (c : Rat) (ha : a ≤ t) (hc : 0 ≤ c) :
    (a : Rat) / (t : Rat) * c ≤ c := by
  rcases Nat.eq_zero_or_pos t with ht | ht
  · subst ht
    have : a = 0 := Nat.le_zero.mp ha
    subst this
    simp [hc]
  · have htq : (0 : Rat) < (t : Rat) := by exact_mod_cast ht
    have h1 : (a : Rat) / (t : Rat) ≤ 1 := (div_le_one htq).mpr (by exact_mod_cast ha)
    calc (a : Rat) / (t : Rat) * c ≤ 1 * c := mul_le_mul_of_nonneg_right h1 hc
      _ = c := one_mul c

theorem chain_scanFractions (total len : Nat) (hlen : len ≤ total) :
    List.Chain' (· ≤ ·) (progressFractions (scanProgress total len)) ∧
    ∀ x ∈ progressFractions (scanProgress total len), 0 ≤ x ∧ x ≤ 70 := by
  rw [progressFractions_scanProgress]
  constructor
  · rw [List.chain'_iff_pairwise]
    apply List.Pairwise.filterMap _ ?_ (List.pairwise_lt_range len)
    intro a b hab x hx y hy
    by_cases hma : a % 10000 = 0
    · rw [if_pos hma] at hx
      by_cases hmb : b % 10000 = 0
      · rw [if_pos hmb] at hy
        cases hx
        cases hy
        exact fracStep total a b 70 (Nat.le_of_lt hab) (by norm_num)
      · rw [if_neg hmb] at hy
        cases hy
    · rw [if_neg hma] at hx
      cases hx
  · intro x hx
    rcases List.mem_filterMap.mp hx with ⟨i, hi, hfx⟩
    by_cases h : i % 10000 = 0
    · rw [if_pos h] at hfx
      cases hfx
      refine ⟨by positivity, ?_⟩
      apply fracUpper
      · have := List.mem_range.mp hi
        omega
      · norm_num
    · rw [if_neg h] at hfx
      cases hfx

theorem chain_chunkFractions (total : Nat) :
    List.Chain' (· ≤ ·) (progressFractions (chunkProgress total)) ∧
    ∀ x ∈ progressFractions (chunkProgress total), x ≤ 80 := by
  rw [progressFractions_chunkProgress]
  constructor
  · rw [List.chain'_iff_pairwise]
    apply List.Pairwise.map _ ?_ (List.pairwise_lt_range _)
    intro a b hab
    apply fracStep _ _ _ 80 ?_ (by norm_num)
    have : a ≤ b := Nat.le_of_lt hab
    omega
  · intro x hx
    rcases List.mem_map.mp hx with ⟨k, -, hk⟩
    subst hk
    exact fracUpper total _ 80 (Nat.min_le_right _ _) (by norm_num)

theorem progressFractions_partialOpt (c : Prop) [Decidable c]
    (items : List JsonValue) (k : Nat) :
    progressFractions (if c then [WEvent.partialEv items k] else []) = [] := by
  split <;> rfl

theorem progressFractions_cons_progress (fr : Rat) (p t : Nat) (l : List WEvent) :
    progressFractions (.progress fr p t :: l) = fr :: progressFractions l := rfl

theorem batchLoop_fracs (total processed n bs : Nat) (hp : Bool)
    (hbs : 0 < bs) :
    ∀ (fuel : Nat) (rem : List (List Char)) (i : Nat) (items : List JsonValue),
      (i + rem.length = n ∨ rem = []) →
      List.Chain' (· ≤ ·)
        (progressFractions (batchLoop total processed n bs hp fuel i items rem).1) ∧
      ∀ x ∈ progressFractions (batchLoop total processed n bs hp fuel i items rem).1,
        70 + ((i + 1 : Nat) : Rat) / (n : Rat) * 30 ≤ x ∧ x ≤ 100 := by
  intro fuel
  induction fuel with
  | zero =>
    intro rem i items hinv
    cases rem <;> simp [batchLoop, progressFractions]
  | succ fuel ih =>
    intro rem i items hinv
    cases rem with
    | nil => simp [batchLoop, progressFractions]
    | cons hd tl =>
      have hn : i + (tl.length + 1) = n := by
        rcases hinv with h | h
        · simpa using h
        · cases h
      have hinv' : (i + bs) + ((hd :: tl).drop bs).length = n ∨ (hd :: tl).drop bs = [] := by
        by_cases hble : bs ≤ tl.length + 1
        · left
          simp only [List.length_drop, List.length_cons]
          omega
        · right
          apply List.drop_eq_nil_of_le
          simp only [List.length_cons]
          omega
      rcases ih ((hd :: tl).drop bs) (i + bs)
          (items ++ ((hd :: tl).take bs).filterMap decodeItem) hinv' with ⟨ihc, ihb⟩
      have htk : ((hd :: tl).take bs).length = min bs (tl.length + 1) := by
        simp [List.length_take]
      have htk1 : 1 ≤ ((hd :: tl).take bs).length := by
        rw [htk]
        omega
      have htkn : i + ((hd :: tl).take bs).length ≤ n := by
        rw [htk]
        omega
      simp only [batchLoop]
      rw [progressFractions_append, progressFractions_cons_progress,
        progressFractions_partialOpt, List.singleton_append]
      have hlow : 70 + ((i + 1 : Nat) : Rat) / (n : Rat) * 30 ≤
          70 + ((i + ((hd :: tl).take bs).length : Nat) : Rat) / (n : Rat) * 30 := by
        apply add_le_add_left
        apply fracStep _ _ _ 30 (by omega) (by norm_num)
      have hup : 70 + ((i + ((hd :: tl).take bs).length : Nat) : Rat) / (n : Rat) * 30 ≤ 100 := by
        have h30 : ((i + ((hd :: tl).take bs).length : Nat) : Rat) / (n : Rat) * 30 ≤ 30 :=
          fracUpper n _ 30 htkn (by norm_num)
        linarith
      constructor
      · rw [List.chain'_cons']
        refine ⟨?_, ihc⟩
        intro y hy
        have hmem := List.mem_of_mem_head? hy
        rcases ihb y hmem with ⟨hyl, -⟩
        refine le_trans ?_ hyl
        apply add_le_add_left
        apply fracStep _ _ _ 30 (by omega) (by norm_num)
      · intro x hx
        rcases List.mem_cons.mp hx with rfl | hx
        · exact ⟨hlow, hup⟩
        · rcases ihb x hx with ⟨hxl, hxu⟩
          refine ⟨le_trans ?_ hxl, hxu⟩
          apply add_le_add_left
          apply fracStep _ _ _ 30 (by omega) (by norm_num)

theorem trimChars_length_le (l : List Char) : (trimChars l).length ≤ l.length := by
  rw [trimChars]
  calc (((l.dropWhile (fun c => isWs c)).reverse.dropWhile (fun c => isWs c)).reverse).length
      = ((l.dropWhile (fun c => isWs c)).reverse.dropWhile (fun c => isWs c)).length :=
        List.length_reverse _
    _ ≤ (l.dropWhile (fun c => isWs c)).reverse.length :=
        (List.dropWhile_sublist _).length_le
    _ = (l.dropWhile (fun c => isWs c)).length := List.length_reverse _
    _ ≤ l.length := (List.dropWhile_sublist _).length_le

theorem inner_length_le (content : List Char) :
    (trimChars (((trimChars content).drop 1).dropLast)).length ≤ content.length := by
  have h1 := trimChars_length_le (((trimChars content).drop 1).dropLast)
  have h2 := trimChars_length_le content
  simp only [List.length_dropLast, List.length_drop] at h1
  omega

/-- Claim C2, counterexample.  The empty-array input `[]` completes
without an error, yet the run emits no ProgressEvent at all
(`parseArrayStream` returns early before any progress call), so no
final fraction of exactly 100 is recorded. -/
theorem c2_counterexample :
    completionError (runWorker ("[]".toList) true) = none ∧
    progressFractions (runWorker ("[]".toList) true) = [] := by
  exact ⟨by decide, by decide⟩

theorem chain_arrayEvents (total processed bs : Nat) (hp : Bool) (hbs : 0 < bs)
    (len : Nat) (hlen : len ≤ total) (rem : List (List Char)) :
    List.Chain' (· ≤ ·) (progressFractions
      (scanProgress total len ++
        (batchLoop total processed rem.length bs hp rem.length 0 [] rem).1 ++
        [.progress 100 total total])) ∧
    (progressFractions
      (scanProgress total len ++
        (batchLoop total processed rem.length bs hp rem.length 0 [] rem).1 ++
        [.progress 100 total total])).getLast? = some 100 := by
  rcases chain_scanFractions total len hlen with ⟨hsc, hsb⟩
  rcases batchLoop_fracs total processed rem.length bs hp hbs rem.length rem 0 []
      (Or.inl (Nat.zero_add _)) with ⟨hbc, hbb⟩
  rw [progressFractions_append, progressFractions_append]
  rw [show progressFractions [WEvent.progress 100 total total] = [(100 : Rat)] from rfl]
  constructor
  · rw [List.chain'_append]
    refine ⟨?_, List.chain'_singleton _, ?_⟩
    · rw [List.chain'_append]
      refine ⟨hsc, hbc, ?_⟩
      intro x hx y hy
      rcases hsb x (List.mem_of_mem_getLast? hx) with ⟨-, hx70⟩
      rcases hbb y (List.mem_of_mem_head? hy) with ⟨hy70, -⟩
      have h0 : (0 : Rat) ≤ ((0 + 1 : Nat) : Rat) / (rem.length : Rat) * 30 := by
        positivity
      linarith
    · intro x hx y hy
      have hy100 : (100 : Rat) = y := by simpa using hy
      subst hy100
      rcases List.mem_append.mp (List.mem_of_mem_getLast? hx) with h | h
      · rcases hsb x h with ⟨-, hx70⟩
        linarith
      · exact (hbb x h).2
  · exact List.getLast?_concat _

theorem chain_docEvents (total : Nat) :
    List.Chain' (· ≤ ·)
      (progressFractions (chunkProgress total ++ [.progress 100 total total])) ∧
    (progressFractions
      (chunkProgress total ++ [.progress 100 total total])).getLast? = some 100 := by
  rcases chain_chunkFractions total with ⟨hcc, hcb⟩
  rw [progressFractions_append]
  rw [show progressFractions [WEvent.progress 100 total total] = [(100 : Rat)] from rfl]
  constructor
  · rw [List.chain'_append]
    refine ⟨hcc, List.chain'_singleton _, ?_⟩
    intro x hx y hy
    have hy100 : (100 : Rat) = y := by simpa using hy
    subst hy100
    have := hcb x (List.mem_of_mem_getLast? hx)
    linarith
  · exact List.getLast?_concat _

set_option maxHeartbeats 1000000 in
/-- Claim C2, amended.  For every run that ends without an error the
emitted ProgressEvent fractions are monotonically non-decreasing, and
whenever at least one ProgressEvent is emitted the last fraction is
exactly 100; an error-free run may also emit no ProgressEvent at all
(empty-array inputs). -/
theorem c2_amended (content : List Char) (isArray : Bool)
    (herr : completionError (runWorker content isArray) = none) :
    List.Chain' (· ≤ ·) (progressFractions (runWorker content isArray)) ∧
    (progressFractions (runWorker content isArray) ≠ [] →
      (progressFractions (runWorker content isArray)).getLast? = some 100) := by
  have hsplit : progressFractions (runWorker content isArray) =
      progressFractions (parseJsonStreamM content isArray).1 := by
    rw [runWorker, progressFractions_append, progressFractions_completeMatch,
      List.append_nil]
  have hok : ∀ e, (parseJsonStreamM content isArray).2 ≠ .error e := by
    intro e he
    simp only [runWorker, he] at herr
    rw [completionError_concat] at herr
    cases herr
  rw [hsplit]
  by_cases hpath : (trimChars content).head? = some '['
  · have harr : (parseJsonStreamM content isArray).1 =
        (parseArrayStreamM content isArray).1 := by
      simp only [parseJsonStreamM, if_pos hpath]
    rw [harr]
    by_cases hframe : ¬((trimChars content).head? = some '[' ∧
        (trimChars content).getLast? = some ']')
    · have h1 : (parseArrayStreamM content isArray).1 = [] := by
        simp only [parseArrayStreamM, if_pos hframe]
      rw [h1]
      exact ⟨by simp [progressFractions], fun hne => absurd rfl hne⟩
    · by_cases hemp : trimChars (((trimChars content).drop 1).dropLast) = []
      · have h1 : (parseArrayStreamM content isArray).1 = [] := by
          simp only [parseArrayStreamM, if_neg hframe, if_pos hemp]
        rw [h1]
        exact ⟨by simp [progressFractions], fun hne => absurd rfl hne⟩
      · have h1 : (parseArrayStreamM content isArray).1 =
            scanProgress content.length
                (trimChars (((trimChars content).drop 1).dropLast)).length ++
              (batchLoop content.length
                ((trimChars (((trimChars content).drop 1).dropLast)).length - 1)
                (scanItems (trimChars (((trimChars content).drop 1).dropLast))).length
                (max 1 ((scanItems
                  (trimChars (((trimChars content).drop 1).dropLast))).length / 10))
                isArray
                (scanItems (trimChars (((trimChars content).drop 1).dropLast))).length 0 []
                (scanItems (trimChars (((trimChars content).drop 1).dropLast)))).1 ++
              [.progress 100 content.length content.length] := by
          simp only [parseArrayStreamM, if_neg hframe, if_neg hemp]
        rw [h1]
        rcases chain_arrayEvents content.length
            ((trimChars (((trimChars content).drop 1).dropLast)).length - 1)
            (max 1 ((scanItems (trimChars (((trimChars content).drop 1).dropLast))).length / 10))
            isArray (Nat.lt_of_lt_of_le Nat.zero_lt_one (Nat.le_max_left _ _))
            (trimChars (((trimChars content).drop 1).dropLast)).length
            (inner_length_le content)
            (scanItems (trimChars (((trimChars content).drop 1).dropLast)))
          with ⟨hc, hl⟩
        exact ⟨hc, fun _ => hl⟩
  · cases hjp : jsonParse content with
    | none =>
      exfalso
      apply hok .docParseFailure
      simp only [parseJsonStreamM, if_neg hpath, hjp]
    | some v =>
      have h1 : (parseJsonStreamM content isArray).1 =
          chunkProgress content.length ++
            [.progress 100 content.length content.length] := by
        simp only [parseJsonStreamM, if_neg hpath, hjp]
      rw [h1]
      rcases chain_docEvents content.length with ⟨hc, hl⟩
      exact ⟨hc, fun _ => hl⟩

/-- Witness for `c2_amended` at the concrete input `7`. -/
theorem c2_amended_witness :
    List.Chain' (· ≤ ·) (progressFractions (runWorker ("7".toList) false)) ∧
    (progressFractions (runWorker ("7".toList) false) ≠ [] →
      (progressFractions (runWorker ("7".toList) false)).getLast? = some 100) :=
  c2_amended ("7".toList) false (by decide)

/-! ## Scanner-invariant lemmas -/

theorem splitFold_append (a : List Char) :
    ∀ (st : ScanSt) (acc : List (List Char)) (cur b : List Char),
    splitFold st acc cur (a ++ b) =
      splitFold (splitFold st acc cur a).1 (splitFold st acc cur a).2.1
        (splitFold st acc cur a).2.2 b := by
  induction a with
  | nil => intro st acc cur b; rfl
  | cons c cs ih =>
    intro st acc cur b
    simp only [List.cons_append, splitFold]
    rcases hp : scanStep st c with ⟨st', sep⟩
    cases sep <;> simp [hp, ih]

theorem scanStep_nonstruct (b k : Int) (c : Char)
    (h1 : c ≠ '"') (h2 : c ≠ '{') (h3 : c ≠ '}') (h4 : c ≠ '[') (h5 : c ≠ ']')
    (h6 : c ≠ ',') :
    scanStep ⟨b, k, false, false⟩ c = (⟨b, k, false, false⟩, false) := by
  simp [scanStep, h1, h2, h3, h4, h5, h6]

theorem scanStep_comma_pos (b k : Int) (h : ¬(b = 0 ∧ k = 0)) :
    scanStep ⟨b, k, false, false⟩ ',' = (⟨b, k, false, false⟩, false) := by
  have h1 : (',' : Char) ≠ '"' := by decide
  have h2 : (',' : Char) ≠ '{' := by decide
  have h3 : (',' : Char) ≠ '}' := by decide
  have h4 : (',' : Char) ≠ '[' := by decide
  have h5 : (',' : Char) ≠ ']' := by decide
  simp only [scanStep, h1, h2, h3, h4, h5, if_neg, if_false, Bool.false_and,
    Bool.and_eq_true, decide_eq_true_eq, if_true]
  simp [h]

theorem scanStep_quote_out (b k : Int) :
    scanStep ⟨b, k, false, false⟩ '"' = (⟨b, k, true, false⟩, false) := by
  simp [scanStep]

theorem scanStep_quote_in (b k : Int) :
    scanStep ⟨b, k, true, false⟩ '"' = (⟨b, k, false, false⟩, false) := by
  simp [scanStep]

theorem scanStep_instr_plain (b k : Int) (c : Char) (h1 : c ≠ '"') (h2 : c ≠ '\\') :
    scanStep ⟨b, k, true, false⟩ c = (⟨b, k, true, false⟩, false) := by
  simp [scanStep, h1, h2]

theorem scanStep_instr_bslash (b k : Int) :
    scanStep ⟨b, k, true, false⟩ '\\' = (⟨b, k, true, true⟩, false) := by
  simp [scanStep]

theorem scanStep_esc (st : ScanSt) (h : st.escapeNext = true) (c : Char) :
    scanStep st c = ({ st with escapeNext := false }, false) := by
  simp [scanStep, h]

theorem splitInv_nil : SplitInv [] := by
  intro b k hb hk acc cur
  simp [splitFold]

theorem splitInv_append {a b : List Char} (ha : SplitInv a) (hb : SplitInv b) :
    SplitInv (a ++ b) := by
  intro x y hx hy acc cur
  rw [splitFold_append, ha x y hx hy, hb x y hx hy, List.append_assoc]

theorem posInv_of_splitInv {t : List Char} (h : SplitInv t) : PosInv t :=
  fun b k hb hk _ acc cur => h b k hb hk acc cur

theorem posInv_nil : PosInv [] := posInv_of_splitInv splitInv_nil

theorem posInv_append {a b : List Char} (ha : PosInv a) (hb : PosInv b) :
    PosInv (a ++ b) := by
  intro x y hx hy hpos acc cur
  rw [splitFold_append, ha x y hx hy hpos, hb x y hx hy hpos, List.append_assoc]

theorem strInv_nil : StrInv [] := by
  intro b k acc cur
  simp [splitFold]

theorem strInv_append {a b : List Char} (ha : StrInv a) (hb : StrInv b) :
    StrInv (a ++ b) := by
  intro x y acc cur
  rw [splitFold_append, ha x y, hb x y, List.append_assoc]

theorem splitInv_single_inert {c : Char} (h : inertCh c) : SplitInv [c] := by
  rcases h with ⟨h1, h2, h3, h4, h5, h6⟩
  intro b k hb hk acc cur
  simp [splitFold, scanStep_nonstruct b k c h1 h2 h3 h4 h5 h6]

theorem posInv_comma : PosInv [','] := by
  intro b k hb hk hpos acc cur
  simp [splitFold, scanStep_comma_pos b k hpos]

theorem splitInv_inert {t : List Char} (h : ∀ c ∈ t, inertCh c) : SplitInv t := by
  induction t with
  | nil => exact splitInv_nil
  | cons c cs ih =>
    have : SplitInv ([c] ++ cs) :=
      splitInv_append (splitInv_single_inert (h c (List.mem_cons_self c cs)))
        (ih (fun x hx => h x (List.mem_cons_of_mem c hx)))
    simpa using this

theorem inertCh_of_ws {c : Char} (h : isWs c = true) : inertCh c := by
  rw [isWs] at h
  rcases Bool.or_eq_true_iff.mp h with h' | h'
  · rcases Bool.or_eq_true_iff.mp h' with h'' | h''
    · rcases Bool.or_eq_true_iff.mp h'' with h3 | h3 <;>
        · have := of_decide_eq_true h3
          subst this
          exact ⟨by decide, by decide, by decide, by decide, by decide, by decide⟩
    · have := of_decide_eq_true h''
      subst this
      exact ⟨by decide, by decide, by decide, by decide, by decide, by decide⟩
  · have := of_decide_eq_true h'
    subst this
    exact ⟨by decide, by decide, by decide, by decide, by decide, by decide⟩

theorem splitInv_allWs {w : List Char} (h : allWs w) : SplitInv w :=
  splitInv_inert (fun c hc => inertCh_of_ws (h c hc))

theorem strInv_single_plain {c : Char} (h1 : c ≠ '"') (h2 : c ≠ '\\') : StrInv [c] := by
  intro b k acc cur
  simp [splitFold, scanStep_instr_plain b k c h1 h2]

theorem strInv_esc_pair (e : Char) : StrInv ['\\', e] := by
  intro b k acc cur
  have h1 := scanStep_instr_bslash b k
  simp only [splitFold, h1]
  have h2 : scanStep ⟨b, k, true, true⟩ e = (⟨b, k, true, false⟩, false) :=
    scanStep_esc ⟨b, k, true, true⟩ rfl e
  simp [splitFold, h2]

theorem splitInv_stringLit {body : List Char} (h : StrInv body) :
    SplitInv ('"' :: (body ++ ['"'])) := by
  intro b k hb hk acc cur
  simp only [splitFold, scanStep_quote_out b k, Bool.false_eq_true, if_false]
  rw [splitFold_append, h b k]
  show splitFold ⟨b, k, true, false⟩ acc ((cur ++ ['"']) ++ body) ['"'] = _
  simp only [splitFold, scanStep_quote_in b k, Bool.false_eq_true, if_false]
  simp [List.append_assoc]

/-! ## Whitespace and trimming lemmas -/

theorem skipWs_decomp (cs : List Char) : ∃ w, cs = w ++ skipWs cs ∧ allWs w :=
  ⟨cs.takeWhile (fun c => isWs c),
    (List.takeWhile_append_dropWhile (fun c => isWs c) cs).symm,
    fun c hc => List.mem_takeWhile_imp hc⟩

theorem skipWs_eq_of_headNonWs {t : List Char} (h : headNonWs t) : skipWs t = t := by
  cases t with
  | nil => rfl
  | cons c cs =>
    rw [skipWs, List.dropWhile_cons]
    simp [h c rfl]

theorem skipWs_allWs_append {w : List Char} (x : List Char) (hw : allWs w) :
    skipWs (w ++ x) = skipWs x := by
  induction w with
  | nil => rfl
  | cons c cs ih =>
    rw [List.cons_append, skipWs, List.dropWhile_cons]
    rw [hw c (List.mem_cons_self c cs)]
    simp only [if_true]
    exact ih (fun d hd => hw d (List.mem_cons_of_mem c hd))

theorem skipWs_nil_of_allWs {w : List Char} (hw : allWs w) : skipWs w = [] := by
  have := skipWs_allWs_append [] hw
  simpa using this

theorem allWs_of_skipWs_nil {r : List Char} (h : skipWs r = []) : allWs r := by
  induction r with
  | nil => intro c hc; cases hc
  | cons c cs ih =>
    rw [skipWs, List.dropWhile_cons] at h
    by_cases hc : isWs c = true
    · rw [hc] at h
      simp only [if_true] at h
      intro d hd
      rcases List.mem_cons.mp hd with rfl | hd
      · exact hc
      · exact ih h d hd
    · simp [hc] at h

theorem allWs_append {a b : List Char} (ha : allWs a) (hb : allWs b) : allWs (a ++ b) := by
  intro c hc
  rcases List.mem_append.mp hc with h | h
  · exact ha c h
  · exact hb c h

theorem allWs_reverse {a : List Char} (ha : allWs a) : allWs a.reverse := by
  intro c hc
  exact ha c (List.mem_reverse.mp hc)

theorem dropWhileWs_headNonWs {t : List Char} (h : headNonWs t) :
    t.dropWhile (fun c => isWs c) = t := skipWs_eq_of_headNonWs h

theorem trimChars_allWs {w : List Char} (hw : allWs w) : trimChars w = [] := by
  rw [trimChars]
  have h1 : w.dropWhile (fun c => isWs c) = [] := skipWs_nil_of_allWs hw
  rw [h1]
  rfl

theorem trimChars_sandwich {w t w' : List Char} (hw : allWs w) (hw' : allWs w')
    (h1 : headNonWs t) (h2 : lastNonWs t) : trimChars (w ++ (t ++ w')) = t := by
  rcases List.eq_nil_or_concat t with rfl | ⟨t₀, c, rfl⟩
  · simp only [List.nil_append]
    exact trimChars_allWs (allWs_append hw hw')
  · simp only [List.concat_eq_append] at h1 h2 ⊢
    rw [trimChars]
    have hd1 : (w ++ ((t₀ ++ [c]) ++ w')).dropWhile (fun c => isWs c) = (t₀ ++ [c]) ++ w' := by
      have := skipWs_allWs_append ((t₀ ++ [c]) ++ w') hw
      rw [skipWs] at this
      rw [this]
      exact skipWs_eq_of_headNonWs (fun d hd => h1 d (by
        rcases t₀ with _ | ⟨x, xs⟩
        · simpa using hd
        · simpa using hd))
    rw [hd1]
    have hrev : ((t₀ ++ [c]) ++ w').reverse = w'.reverse ++ (c :: t₀.reverse) := by
      simp
    rw [hrev]
    have hd2 : (w'.reverse ++ (c :: t₀.reverse)).dropWhile (fun c => isWs c) =
        c :: t₀.reverse := by
      have hstep := skipWs_allWs_append (c :: t₀.reverse) (allWs_reverse hw')
      rw [skipWs] at hstep
      rw [hstep]
      have hc : isWs c = false := h2 c (by simp)
      rw [skipWs, List.dropWhile_cons]
      simp [hc]
    rw [hd2]
    simp

theorem trimChars_left_pad {w t : List Char} (hw : allWs w)
    (h1 : headNonWs t) (h2 : lastNonWs t) : trimChars (w ++ t) = t := by
  have h := @trimChars_sandwich w t [] hw (by intro c hc; cases hc) h1 h2
  simpa using h

/-! ## Number-follower safety lemmas -/

theorem numSafe_nil : NumSafe [] := by
  intro c hc
  cases hc

theorem numSafe_cons {c : Char} (r : List Char) (h1 : isDigitCh c = false)
    (h2 : c ≠ '.') (h3 : c ≠ 'e') (h4 : c ≠ 'E') : NumSafe (c :: r) := by
  intro x hx
  have hxc : c = x := by simpa using hx
  subst hxc
  exact ⟨h1, h2, h3, h4⟩

theorem numFacts_of_ws {c : Char} (h : isWs c = true) :
    isDigitCh c = false ∧ c ≠ '.' ∧ c ≠ 'e' ∧ c ≠ 'E' := by
  rw [isWs] at h
  rcases Bool.or_eq_true_iff.mp h with h' | h'
  · rcases Bool.or_eq_true_iff.mp h' with h'' | h''
    · rcases Bool.or_eq_true_iff.mp h'' with h3 | h3 <;>
        · have := of_decide_eq_true h3
          subst this
          exact ⟨by decide, by decide, by decide, by decide⟩
    · have := of_decide_eq_true h''
      subst this
      exact ⟨by decide, by decide, by decide, by decide⟩
  · have := of_decide_eq_true h'
    subst this
    exact ⟨by decide, by decide, by decide, by decide⟩

theorem numSafe_allWs_append {w r : List Char} (hw : allWs w) (hr : NumSafe r) :
    NumSafe (w ++ r) := by
  cases w with
  | nil => simpa using hr
  | cons c cs =>
    intro x hx
    have hxc : c = x := by simpa using hx
    subst hxc
    exact numFacts_of_ws (hw c (List.mem_cons_self _ _))

/-! ## Brace/bracket scanner steps and wrapped invariants -/

theorem scanStep_obrace (b k : Int) :
    scanStep ⟨b, k, false, false⟩ '{' = (⟨b + 1, k, false, false⟩, false) := by
  simp [scanStep]

theorem scanStep_cbrace (b k : Int) :
    scanStep ⟨b, k, false, false⟩ '}' = (⟨b - 1, k, false, false⟩, false) := by
  simp [scanStep]

theorem scanStep_obracket (b k : Int) :
    scanStep ⟨b, k, false, false⟩ '[' = (⟨b, k + 1, false, false⟩, false) := by
  simp [scanStep]

theorem scanStep_cbracket (b k : Int) :
    scanStep ⟨b, k, false, false⟩ ']' = (⟨b, k - 1, false, false⟩, false) := by
  simp [scanStep]

theorem splitInv_wrap_brace {inner : List Char} (h : PosInv inner) :
    SplitInv ('{' :: (inner ++ ['}'])) := by
  intro b k hb hk acc cur
  simp only [splitFold, scanStep_obrace b k, Bool.false_eq_true, if_false]
  rw [splitFold_append, h (b + 1) k (by omega) hk (by omega)]
  show splitFold ⟨b + 1, k, false, false⟩ acc ((cur ++ ['{']) ++ inner) ['}'] = _
  simp only [splitFold, scanStep_cbrace (b + 1) k, Bool.false_eq_true, if_false]
  have hb1 : b + 1 - 1 = b := by omega
  rw [hb1]
  simp [List.append_assoc]

theorem splitInv_wrap_bracket {inner : List Char} (h : PosInv inner) :
    SplitInv ('[' :: (inner ++ [']'])) := by
  intro b k hb hk acc cur
  simp only [splitFold, scanStep_obracket b k, Bool.false_eq_true, if_false]
  rw [splitFold_append, h b (k + 1) hb (by omega) (by omega)]
  show splitFold ⟨b, k + 1, false, false⟩ acc ((cur ++ ['[']) ++ inner) [']'] = _
  simp only [splitFold, scanStep_cbracket b (k + 1), Bool.false_eq_true, if_false]
  have hk1 : k + 1 - 1 = k := by omega
  rw [hk1]
  simp [List.append_assoc]

/-! ## Character-class facts -/

theorem ne_of_digit_of_not {c d : Char} (h : isDigitCh c = true)
    (hd : isDigitCh d = false) : c ≠ d := by
  intro heq
  subst heq
  rw [h] at hd
  cases hd

theorem ne_of_hex_of_not {c d : Char} (h : isHexCh c = true)
    (hd : isHexCh d = false) : c ≠ d := by
  intro heq
  subst heq
  rw [h] at hd
  cases hd

theorem digit_not_ws {c : Char} (h : isDigitCh c = true) : isWs c = false := by
  cases hws : isWs c with
  | false => rfl
  | true =>
    have := (numFacts_of_ws hws).1
    rw [h] at this
    cases this

theorem digit_inert {c : Char} (h : isDigitCh c = true) : inertCh c :=
  ⟨ne_of_digit_of_not h (by decide), ne_of_digit_of_not h (by decide),
   ne_of_digit_of_not h (by decide), ne_of_digit_of_not h (by decide),
   ne_of_digit_of_not h (by decide), ne_of_digit_of_not h (by decide)⟩

theorem takeWhile_append_stop {p : Char → Bool} {ds X : List Char}
    (hds : ∀ c ∈ ds, p c = true) (hX : ∀ c, X.head? = some c → p c = false) :
    (ds ++ X).takeWhile p = ds ∧ (ds ++ X).dropWhile p = X := by
  induction ds with
  | nil =>
    simp only [List.nil_append]
    cases X with
    | nil => exact ⟨rfl, rfl⟩
    | cons x xs =>
      have hx := hX x rfl
      rw [List.takeWhile_cons, List.dropWhile_cons]
      simp [hx]
  | cons d ds ih =>
    have hd := hds d (List.mem_cons_self _ _)
    have hp := ih (fun c hc => hds c (List.mem_cons_of_mem _ hc))
    rw [List.cons_append, List.takeWhile_cons, List.dropWhile_cons]
    simp [hd, hp.1, hp.2]

/-! ## String-literal parser: consumption and locality -/

theorem psb_cons_quote (cs : List Char) : parseStringBody ('"' :: cs) = some ([], cs) := by
  unfold parseStringBody
  simp

theorem psb_cons_esc_nil : parseStringBody ['\\'] = none := by
  unfold parseStringBody
  simp

theorem psb_cons_esc_u (cs : List Char) :
    parseStringBody ('\\' :: 'u' :: cs) =
      (match cs with
        | h1 :: h2 :: h3 :: h4 :: cs'' =>
          if isHexCh h1 && isHexCh h2 && isHexCh h3 && isHexCh h4 then
            (parseStringBody cs'').map (fun p =>
              (Char.ofNat (((hexVal h1 * 16 + hexVal h2) * 16 + hexVal h3) * 16 +
                hexVal h4) :: p.1, p.2))
          else none
        | _ => none) := by
  conv_lhs => rw [parseStringBody.eq_def]
  simp

theorem psb_cons_esc_gen (e : Char) (cs : List Char) (he : e ≠ 'u') :
    parseStringBody ('\\' :: e :: cs) =
      (match escChar e with
        | some ch => (parseStringBody cs).map (fun p => (ch :: p.1, p.2))
        | none => none) := by
  conv_lhs => rw [parseStringBody.eq_def]
  simp [he]

theorem psb_cons_plain (c : Char) (cs : List Char) (hq : c ≠ '"') (hb : c ≠ '\\')
    (hctl : ¬ c.toNat < 32) :
    parseStringBody (c :: cs) = (parseStringBody cs).map (fun p => (c :: p.1, p.2)) := by
  conv_lhs => rw [parseStringBody.eq_def]
  simp [hq, hb, hctl]

theorem parseStringBody_spec : ∀ (n : Nat) (cs : List Char), cs.length ≤ n →
    ∀ s rest, parseStringBody cs = some (s, rest) →
    ∃ body, cs = body ++ ('"' :: rest) ∧ StrInv body ∧
      ∀ r', parseStringBody (body ++ ('"' :: r')) = some (s, r') := by
  intro n
  induction n with
  | zero =>
    intro cs hlen s rest h
    have hnil : cs = [] := List.length_eq_zero.mp (Nat.le_zero.mp hlen)
    subst hnil
    rw [show parseStringBody [] = none from rfl] at h
    cases h
  | succ n ih =>
    intro cs hlen s rest h
    rcases cs with _ | ⟨c, cs'⟩
    · rw [show parseStringBody [] = none from rfl] at h
      cases h
    by_cases hq : c = '"'
    · subst hq
      rw [psb_cons_quote] at h
      obtain ⟨hs, hr⟩ := Prod.mk.injEq .. |>.mp (Option.some.inj h)
      subst hs; subst hr
      exact ⟨[], rfl, strInv_nil, fun r' => psb_cons_quote r'⟩
    by_cases hb : c = '\\'
    · subst hb
      rcases cs' with _ | ⟨e, cs₂⟩
      · rw [psb_cons_esc_nil] at h
        cases h
      by_cases he : e = 'u'
      · subst he
        rw [psb_cons_esc_u] at h
        split at h
        · rename_i x1 x2 x3 x4 cs₃
          by_cases hhex : (isHexCh x1 && isHexCh x2 && isHexCh x3 && isHexCh x4) = true
          · rw [if_pos hhex] at h
            rcases Option.map_eq_some'.mp h with ⟨⟨s₀, rest₀⟩, hp, hf⟩
            injection hf with hf1 hf2
            subst hf1; subst hf2
            have hlen' : cs₃.length ≤ n := by
              simp only [List.length_cons] at hlen; omega
            obtain ⟨body, hbeq, hstr, hloc⟩ := ih cs₃ hlen' s₀ _ hp
            have hx := hhex
            simp only [Bool.and_eq_true] at hx
            obtain ⟨⟨⟨e1, e2⟩, e3⟩, e4⟩ := hx
            refine ⟨'\\' :: 'u' :: x1 :: x2 :: x3 :: x4 :: body, by simp [hbeq], ?_, ?_⟩
            · exact strInv_append (strInv_esc_pair 'u')
                (strInv_append (strInv_single_plain (ne_of_hex_of_not e1 (by decide))
                    (ne_of_hex_of_not e1 (by decide)))
                  (strInv_append (strInv_single_plain (ne_of_hex_of_not e2 (by decide))
                      (ne_of_hex_of_not e2 (by decide)))
                    (strInv_append (strInv_single_plain (ne_of_hex_of_not e3 (by decide))
                        (ne_of_hex_of_not e3 (by decide)))
                      (strInv_append (strInv_single_plain (ne_of_hex_of_not e4 (by decide))
                          (ne_of_hex_of_not e4 (by decide))) hstr))))
            · intro r'
              simp only [List.cons_append]
              simp [psb_cons_esc_u, hhex, hloc r']
          · rw [if_neg hhex] at h
            cases h
        · cases h
      · rw [psb_cons_esc_gen e cs₂ he] at h
        rcases hesc : escChar e with _ | ch
        · rw [hesc] at h
          simp at h
        · rw [hesc] at h
          have h' : (parseStringBody cs₂).map (fun p => (ch :: p.1, p.2)) = some (s, rest) := h
          rcases Option.map_eq_some'.mp h' with ⟨⟨s₀, rest₀⟩, hp, hf⟩
          injection hf with hf1 hf2
          subst hf1; subst hf2
          have hlen' : cs₂.length ≤ n := by
            simp only [List.length_cons] at hlen; omega
          obtain ⟨body, hbeq, hstr, hloc⟩ := ih cs₂ hlen' s₀ _ hp
          refine ⟨'\\' :: e :: body, by simp [hbeq], ?_, ?_⟩
          · exact strInv_append (strInv_esc_pair e) hstr
          · intro r'
            simp only [List.cons_append]
            rw [psb_cons_esc_gen e _ he, hesc]
            simp [hloc r']
    · by_cases hctl : c.toNat < 32
      · rw [show parseStringBody (c :: cs') = none from by
          conv_lhs => rw [parseStringBody.eq_def]
          simp [hq, hb, hctl]] at h
        cases h
      · rw [psb_cons_plain c cs' hq hb hctl] at h
        rcases Option.map_eq_some'.mp h with ⟨⟨s₀, rest₀⟩, hp, hf⟩
        injection hf with hf1 hf2
        subst hf1; subst hf2
        have hlen' : cs'.length ≤ n := by
          simp only [List.length_cons] at hlen; omega
        obtain ⟨body, hbeq, hstr, hloc⟩ := ih cs' hlen' s₀ _ hp
        refine ⟨c :: body, by simp [hbeq], ?_, ?_⟩
        · exact strInv_append (strInv_single_plain hq hb) hstr
        · intro r'
          simp only [List.cons_append]
          rw [psb_cons_plain c _ hq hb hctl, hloc r']
          rfl

/-! ## Number parser: consumption and locality -/

theorem head_of_dropWhile_not {p : Char → Bool} :
    ∀ (l : List Char) (c : Char), (l.dropWhile p).head? = some c → p c = false := by
  intro l
  induction l with
  | nil => intro c hc; cases hc
  | cons x xs ih =>
    intro c hc
    rw [List.dropWhile_cons] at hc
    by_cases hx : p x = true
    · rw [if_pos hx] at hc
      exact ih c hc
    · rw [if_neg hx] at hc
      have hxc : x = c := by simpa using hc
      subst hxc
      exact Bool.not_eq_true _ |>.mp hx

theorem parseIntDigits_spec {cs ids rest : List Char}
    (h : parseIntDigits cs = some (ids, rest)) :
    cs = ids ++ rest ∧ ids ≠ [] ∧ (∀ c ∈ ids, isDigitCh c = true) ∧
      ∀ X, (∀ c, X.head? = some c → isDigitCh c = false) →
        parseIntDigits (ids ++ X) = some (ids, X) := by
  rcases cs with _ | ⟨c, cs'⟩
  · rw [show parseIntDigits [] = none from rfl] at h
    cases h
  by_cases h0 : c = '0'
  · subst h0
    rw [show parseIntDigits ('0' :: cs') = some (['0'], cs') from by
      rw [parseIntDigits.eq_def]; simp] at h
    obtain ⟨hi, hr⟩ := Prod.mk.injEq .. |>.mp (Option.some.inj h)
    subst hi; subst hr
    refine ⟨rfl, by simp, by simp [isDigitCh], ?_⟩
    intro X hX
    rw [show (['0'] ++ X : List Char) = '0' :: X from rfl]
    rw [parseIntDigits.eq_def]; simp
  by_cases hd : isDigitCh c = true
  · rw [show parseIntDigits (c :: cs') =
        some (c :: cs'.takeWhile (fun d => isDigitCh d),
          cs'.dropWhile (fun d => isDigitCh d)) from by
      rw [parseIntDigits.eq_def]; simp [h0, hd]] at h
    obtain ⟨hi, hr⟩ := Prod.mk.injEq .. |>.mp (Option.some.inj h)
    subst hi; subst hr
    refine ⟨by simp [List.takeWhile_append_dropWhile], by simp, ?_, ?_⟩
    · intro d hdm
      rcases List.mem_cons.mp hdm with rfl | hm
      · exact hd
      · exact List.mem_takeWhile_imp hm
    · intro X hX
      have hstop := @takeWhile_append_stop (fun d => isDigitCh d)
        (cs'.takeWhile (fun d => isDigitCh d)) X
        (fun d hm => List.mem_takeWhile_imp hm) hX
      rw [List.cons_append, parseIntDigits.eq_def]
      simp [h0, hd, hstop.1, hstop.2]
  · rw [show parseIntDigits (c :: cs') = none from by
      rw [parseIntDigits.eq_def]; simp [h0, hd]] at h
    cases h

theorem parseFracDigits_nodot {cs : List Char} (h : ∀ c, cs.head? = some c → c ≠ '.') :
    parseFracDigits cs = some ([], cs) := by
  rw [parseFracDigits.eq_def]
  split
  · rename_i cs₀
    exact absurd rfl (h '.' rfl)
  · rfl

theorem parseFracDigits_dot {ds X : List Char} (hne : ds ≠ [])
    (hds : ∀ c ∈ ds, isDigitCh c = true)
    (hX : ∀ c, X.head? = some c → isDigitCh c = false) :
    parseFracDigits ('.' :: (ds ++ X)) = some (ds, X) := by
  have hstop := @takeWhile_append_stop (fun d => isDigitCh d) ds X hds hX
  rw [parseFracDigits.eq_def]
  simp [hstop.1, hstop.2, hne]

theorem parseFracDigits_spec {cs fds rest : List Char}
    (h : parseFracDigits cs = some (fds, rest)) :
    (fds = [] ∧ rest = cs ∧ ∀ c, cs.head? = some c → c ≠ '.') ∨
    (fds ≠ [] ∧ (∀ c ∈ fds, isDigitCh c = true) ∧ cs = '.' :: (fds ++ rest) ∧
      (∀ c, rest.head? = some c → isDigitCh c = false)) := by
  rcases cs with _ | ⟨c, cs'⟩
  · left
    rw [show parseFracDigits [] = some ([], []) from rfl] at h
    obtain ⟨h1, h2⟩ := Prod.mk.injEq .. |>.mp (Option.some.inj h)
    subst h1; subst h2
    exact ⟨rfl, rfl, fun c hc => by cases hc⟩
  by_cases hdot : c = '.'
  · subst hdot
    right
    by_cases hds : cs'.takeWhile (fun d => isDigitCh d) = []
    · rw [show parseFracDigits ('.' :: cs') = none from by
        rw [parseFracDigits.eq_def]; simp [hds]] at h
      cases h
    · rw [show parseFracDigits ('.' :: cs') =
          some (cs'.takeWhile (fun d => isDigitCh d),
            cs'.dropWhile (fun d => isDigitCh d)) from by
        rw [parseFracDigits.eq_def]; simp [hds]] at h
      obtain ⟨h1, h2⟩ := Prod.mk.injEq .. |>.mp (Option.some.inj h)
      subst h1; subst h2
      refine ⟨hds, fun d hm => List.mem_takeWhile_imp hm, ?_, ?_⟩
      · simp [List.takeWhile_append_dropWhile]
      · exact fun c hc => head_of_dropWhile_not cs' c hc
  · left
    rw [parseFracDigits_nodot (fun d hd => by
      have hdc : c = d := by simpa using hd
      subst hdc
      exact hdot)] at h
    obtain ⟨h1, h2⟩ := Prod.mk.injEq .. |>.mp (Option.some.inj h)
    subst h1; subst h2
    exact ⟨rfl, rfl, fun d hd => by
      have hdc : c = d := by simpa using hd
      subst hdc
      exact hdot⟩

theorem parseExpPart_noexp {cs : List Char}
    (h : ∀ c, cs.head? = some c → c ≠ 'e' ∧ c ≠ 'E') :
    parseExpPart cs = some (0, cs) := by
  rcases cs with _ | ⟨c, cs'⟩
  · rfl
  · have hc := h c rfl
    rw [parseExpPart.eq_def]
    simp [hc.1, hc.2]

theorem parseExpPart_plus {c₀ : Char} {ds X : List Char} (hc : c₀ = 'e' ∨ c₀ = 'E')
    (hne : ds ≠ []) (hds : ∀ c ∈ ds, isDigitCh c = true)
    (hX : ∀ c, X.head? = some c → isDigitCh c = false) :
    parseExpPart (c₀ :: '+' :: (ds ++ X)) = some ((digitsToNat ds : Int), X) := by
  have hstop := @takeWhile_append_stop (fun d => isDigitCh d) ds X hds hX
  have hcond : (c₀ = 'e' || c₀ = 'E') = true := by rcases hc with rfl | rfl <;> simp
  rw [parseExpPart.eq_def]
  simp [hcond, hstop.1, hstop.2, hne]

theorem parseExpPart_minus {c₀ : Char} {ds X : List Char} (hc : c₀ = 'e' ∨ c₀ = 'E')
    (hne : ds ≠ []) (hds : ∀ c ∈ ds, isDigitCh c = true)
    (hX : ∀ c, X.head? = some c → isDigitCh c = false) :
    parseExpPart (c₀ :: '-' :: (ds ++ X)) = some (-(digitsToNat ds : Int), X) := by
  have hstop := @takeWhile_append_stop (fun d => isDigitCh d) ds X hds hX
  have hcond : (c₀ = 'e' || c₀ = 'E') = true := by rcases hc with rfl | rfl <;> simp
  rw [parseExpPart.eq_def]
  simp [hcond, hstop.1, hstop.2, hne]

theorem parseExpPart_nosign {c₀ : Char} {ds X : List Char} (hc : c₀ = 'e' ∨ c₀ = 'E')
    (hne : ds ≠ []) (hds : ∀ c ∈ ds, isDigitCh c = true)
    (hX : ∀ c, X.head? = some c → isDigitCh c = false) :
    parseExpPart (c₀ :: (ds ++ X)) = some ((digitsToNat ds : Int), X) := by
  have hcond : (c₀ = 'e' || c₀ = 'E') = true := by rcases hc with rfl | rfl <;> simp
  rcases ds with _ | ⟨d, dtl⟩
  · exact absurd rfl hne
  have hd := hds d (List.mem_cons_self _ _)
  have hd1 : d ≠ '+' := ne_of_digit_of_not hd (by decide)
  have hd2 : d ≠ '-' := ne_of_digit_of_not hd (by decide)
  have hstop := @takeWhile_append_stop (fun x => isDigitCh x) (d :: dtl) X hds hX
  have h1 : (d :: (dtl ++ X)).takeWhile (fun x => isDigitCh x) = d :: dtl := by
    simpa using hstop.1
  have h2 : (d :: (dtl ++ X)).dropWhile (fun x => isDigitCh x) = X := by
    simpa using hstop.2
  rw [parseExpPart.eq_def]
  simp [hcond, hd1, hd2, h1, h2]

theorem parseExpPart_sgn_run {c₀ : Char} {sgn ds X : List Char} {e : Int}
    (hc : c₀ = 'e' ∨ c₀ = 'E') (hne : ds ≠ [])
    (hds : ∀ c ∈ ds, isDigitCh c = true)
    (hX : ∀ c, X.head? = some c → isDigitCh c = false)
    (hsgn : (sgn = ['+'] ∧ e = (digitsToNat ds : Int)) ∨
      (sgn = ['-'] ∧ e = -(digitsToNat ds : Int)) ∨
      (sgn = [] ∧ e = (digitsToNat ds : Int))) :
    parseExpPart ((c₀ :: (sgn ++ ds)) ++ X) = some (e, X) := by
  rcases hsgn with ⟨rfl, rfl⟩ | ⟨rfl, rfl⟩ | ⟨rfl, rfl⟩
  · simpa using parseExpPart_plus hc hne hds hX
  · simpa using parseExpPart_minus hc hne hds hX
  · simpa using parseExpPart_nosign hc hne hds hX

theorem parseExpPart_head_spec {c₀ : Char} {cs' : List Char} {e : Int} {rest : List Char}
    (hc : c₀ = 'e' ∨ c₀ = 'E') (h : parseExpPart (c₀ :: cs') = some (e, rest)) :
    ∃ sgn ds, ds ≠ [] ∧ (∀ c ∈ ds, isDigitCh c = true) ∧
      (∀ c, rest.head? = some c → isDigitCh c = false) ∧
      cs' = sgn ++ (ds ++ rest) ∧
      ((sgn = ['+'] ∧ e = (digitsToNat ds : Int)) ∨
       (sgn = ['-'] ∧ e = -(digitsToNat ds : Int)) ∨
       (sgn = [] ∧ e = (digitsToNat ds : Int))) := by
  have hcond : (c₀ = 'e' || c₀ = 'E') = true := by rcases hc with rfl | rfl <;> simp
  rcases cs' with _ | ⟨s, cs''⟩
  · rw [show parseExpPart (c₀ :: []) = none from by
      rw [parseExpPart.eq_def]; simp [hcond]] at h
    cases h
  by_cases hplus : s = '+'
  · subst hplus
    by_cases hds : cs''.takeWhile (fun d => isDigitCh d) = []
    · rw [show parseExpPart (c₀ :: '+' :: cs'') = none from by
        rw [parseExpPart.eq_def]; simp [hcond, hds]] at h
      cases h
    · rw [show parseExpPart (c₀ :: '+' :: cs'') =
          some ((digitsToNat (cs''.takeWhile (fun d => isDigitCh d)) : Int),
            cs''.dropWhile (fun d => isDigitCh d)) from by
        rw [parseExpPart.eq_def]; simp [hcond, hds]] at h
      obtain ⟨h1, h2⟩ := Prod.mk.injEq .. |>.mp (Option.some.inj h)
      subst h1; subst h2
      refine ⟨['+'], cs''.takeWhile (fun d => isDigitCh d), hds,
        fun d hm => List.mem_takeWhile_imp hm,
        fun c hc' => head_of_dropWhile_not cs'' c hc', ?_, Or.inl ⟨rfl, rfl⟩⟩
      simp [List.takeWhile_append_dropWhile]
  by_cases hminus : s = '-'
  · subst hminus
    by_cases hds : cs''.takeWhile (fun d => isDigitCh d) = []
    · rw [show parseExpPart (c₀ :: '-' :: cs'') = none from by
        rw [parseExpPart.eq_def]; simp [hcond, hds]] at h
      cases h
    · rw [show parseExpPart (c₀ :: '-' :: cs'') =
          some (-(digitsToNat (cs''.takeWhile (fun d => isDigitCh d)) : Int),
            cs''.dropWhile (fun d => isDigitCh d)) from by
        rw [parseExpPart.eq_def]; simp [hcond, hds]] at h
      obtain ⟨h1, h2⟩ := Prod.mk.injEq .. |>.mp (Option.some.inj h)
      subst h1; subst h2
      refine ⟨['-'], cs''.takeWhile (fun d => isDigitCh d), hds,
        fun d hm => List.mem_takeWhile_imp hm,
        fun c hc' => head_of_dropWhile_not cs'' c hc', ?_, Or.inr (Or.inl ⟨rfl, rfl⟩)⟩
      simp [List.takeWhile_append_dropWhile]
  · by_cases hds : (s :: cs'').takeWhile (fun d => isDigitCh d) = []
    · rw [show parseExpPart (c₀ :: s :: cs'') = none from by
        rw [parseExpPart.eq_def]; simp [hcond, hplus, hminus, hds]] at h
      cases h
    · rw [show parseExpPart (c₀ :: s :: cs'') =
          some ((digitsToNat ((s :: cs'').takeWhile (fun d => isDigitCh d)) : Int),
            (s :: cs'').dropWhile (fun d => isDigitCh d)) from by
        rw [parseExpPart.eq_def]; simp [hcond, hplus, hminus, hds]] at h
      obtain ⟨h1, h2⟩ := Prod.mk.injEq .. |>.mp (Option.some.inj h)
      subst h1; subst h2
      refine ⟨[], (s :: cs'').takeWhile (fun d => isDigitCh d), hds,
        fun d hm => List.mem_takeWhile_imp hm,
        fun c hc' => head_of_dropWhile_not (s :: cs'') c hc', ?_,
        Or.inr (Or.inr ⟨rfl, rfl⟩)⟩
      simp [List.takeWhile_append_dropWhile]

theorem parseExpPart_spec {cs : List Char} {e : Int} {rest : List Char}
    (h : parseExpPart cs = some (e, rest)) :
    (e = 0 ∧ rest = cs ∧ ∀ c, cs.head? = some c → c ≠ 'e' ∧ c ≠ 'E') ∨
    (∃ c₀ sgn ds, (c₀ = 'e' ∨ c₀ = 'E') ∧ ds ≠ [] ∧
      (∀ c ∈ ds, isDigitCh c = true) ∧
      (∀ c, rest.head? = some c → isDigitCh c = false) ∧
      cs = c₀ :: (sgn ++ (ds ++ rest)) ∧
      ((sgn = ['+'] ∧ e = (digitsToNat ds : Int)) ∨
       (sgn = ['-'] ∧ e = -(digitsToNat ds : Int)) ∨
       (sgn = [] ∧ e = (digitsToNat ds : Int)))) := by
  rcases cs with _ | ⟨c, cs'⟩
  · left
    rw [show parseExpPart [] = some (0, []) from rfl] at h
    obtain ⟨h1, h2⟩ := Prod.mk.injEq .. |>.mp (Option.some.inj h)
    subst h1; subst h2
    exact ⟨rfl, rfl, fun c hc => by cases hc⟩
  by_cases hce : c = 'e' ∨ c = 'E'
  · right
    obtain ⟨sgn, ds, hne, hds, hafter, hshape, hsgn⟩ := parseExpPart_head_spec hce h
    exact ⟨c, sgn, ds, hce, hne, hds, hafter, by rw [hshape], hsgn⟩
  · left
    push_neg at hce
    rw [parseExpPart_noexp (fun d hd => by
      have hdc : c = d := by simpa using hd
      subst hdc
      exact hce)] at h
    obtain ⟨h1, h2⟩ := Prod.mk.injEq .. |>.mp (Option.some.inj h)
    subst h1; subst h2
    exact ⟨rfl, rfl, fun d hd => by
      have hdc : c = d := by simpa using hd
      subst hdc
      exact hce⟩

theorem inertCh_of_all {c : Char}
    (h : c ≠ '"' ∧ c ≠ '\x7b' ∧ c ≠ '\x7d' ∧ c ≠ '[' ∧ c ≠ ']' ∧ c ≠ ',') :
    inertCh c := h

theorem parseNumberTail_spec {neg : Bool} {cs₀ : List Char} {v : JsonValue}
    {rest : List Char} (h : parseNumberTail neg cs₀ = some (v, rest)) :
    ∃ t, cs₀ = t ++ rest ∧ t ≠ [] ∧ (∀ c ∈ t, inertCh c) ∧ (∀ c ∈ t, isWs c = false) ∧
      (∀ c, t.head? = some c → isDigitCh c = true) ∧
      ∀ r', NumSafe r' → parseNumberTail neg (t ++ r') = some (v, r') := by
  unfold parseNumberTail at h
  split at h
  · simp at h
  rename_i ids cs₁ hid
  split at h
  · simp at h
  rename_i fds cs₂ hfr
  split at h
  · simp at h
  rename_i e cs₃ hex
  simp only [Option.some.injEq, Prod.mk.injEq] at h
  obtain ⟨h1, h2⟩ := h
  subst h1
  subst h2
  obtain ⟨hcs₀, hidne, hiddig, hidrun⟩ := parseIntDigits_spec hid
  have hexpack : ∃ expC, cs₂ = expC ++ cs₃ ∧
      (∀ c ∈ expC, inertCh c ∧ isWs c = false) ∧
      (∀ Y, NumSafe Y → ∀ c, (expC ++ Y).head? = some c →
        isDigitCh c = false ∧ c ≠ '.') ∧
      (∀ Y, NumSafe Y → parseExpPart (expC ++ Y) = some (e, Y)) := by
    rcases parseExpPart_spec hex with ⟨he0, hr0, hhead0⟩ |
      ⟨c₀, sgn, ds, hc0, hdne, hddig, hafter, hshape, hsgn⟩
    · subst he0
      refine ⟨[], by simpa using hr0.symm, by simp, ?_, ?_⟩
      · intro Y hY c hcY
        simp only [List.nil_append] at hcY
        exact ⟨(hY c hcY).1, (hY c hcY).2.1⟩
      · intro Y hY
        simpa using parseExpPart_noexp (fun c hcY =>
          ⟨(hY c hcY).2.2.1, (hY c hcY).2.2.2⟩)
    · refine ⟨c₀ :: (sgn ++ ds), by rw [hshape]; simp [List.append_assoc], ?_, ?_, ?_⟩
      · intro c hm
        rcases List.mem_cons.mp hm with rfl | hm'
        · rcases hc0 with rfl | rfl
          · exact ⟨inertCh_of_all (by decide), by decide⟩
          · exact ⟨inertCh_of_all (by decide), by decide⟩
        rcases List.mem_append.mp hm' with hs | hd
        · rcases hsgn with ⟨rfl, _⟩ | ⟨rfl, _⟩ | ⟨rfl, _⟩
          · have hcp : c = '+' := by simpa using hs
            subst hcp; exact ⟨inertCh_of_all (by decide), by decide⟩
          · have hcm : c = '-' := by simpa using hs
            subst hcm; exact ⟨inertCh_of_all (by decide), by decide⟩
          · cases hs
        · exact ⟨digit_inert (hddig c hd), digit_not_ws (hddig c hd)⟩
      · intro Y hY c hcY
        have hcc : c₀ = c := by simpa using hcY
        subst hcc
        rcases hc0 with rfl | rfl
        · exact ⟨by decide, by decide⟩
        · exact ⟨by decide, by decide⟩
      · intro Y hY
        exact parseExpPart_sgn_run hc0 hdne hddig (fun c hcY => (hY c hcY).1) hsgn
  obtain ⟨expC, hcs₂, hexmem, hexhead, hexrun⟩ := hexpack
  have hfrpack : ∃ fracC, cs₁ = fracC ++ cs₂ ∧
      (∀ c ∈ fracC, inertCh c ∧ isWs c = false) ∧
      (∀ Y, NumSafe Y → ∀ c, (fracC ++ (expC ++ Y)).head? = some c →
        isDigitCh c = false) ∧
      (∀ Y, NumSafe Y → parseFracDigits (fracC ++ (expC ++ Y)) = some (fds, expC ++ Y)) := by
    rcases parseFracDigits_spec hfr with ⟨hf0, hr1, hnodot⟩ |
      ⟨hfne, hfdig, hshape, hafterf⟩
    · subst hf0
      refine ⟨[], by simpa using hr1.symm, by simp, ?_, ?_⟩
      · intro Y hY c hcY
        simp only [List.nil_append] at hcY
        exact (hexhead Y hY c hcY).1
      · intro Y hY
        simp only [List.nil_append]
        exact parseFracDigits_nodot (fun c hcY => (hexhead Y hY c hcY).2)
    · refine ⟨'.' :: fds, by rw [hshape]; simp, ?_, ?_, ?_⟩
      · intro c hm
        rcases List.mem_cons.mp hm with rfl | hm'
        · exact ⟨inertCh_of_all (by decide), by decide⟩
        · exact ⟨digit_inert (hfdig c hm'), digit_not_ws (hfdig c hm')⟩
      · intro Y hY c hcY
        have hcd : '.' = c := by simpa using hcY
        subst hcd
        decide
      · intro Y hY
        rw [List.cons_append]
        exact parseFracDigits_dot hfne hfdig (fun c hcY => (hexhead Y hY c hcY).1)
  obtain ⟨fracC, hcs₁, hfmem, hfhead, hfrun⟩ := hfrpack
  refine ⟨ids ++ (fracC ++ expC), ?_, ?_, ?_, ?_, ?_, ?_⟩
  · rw [hcs₀, hcs₁, hcs₂]
    simp [List.append_assoc]
  · simp [hidne]
  · intro c hm
    rcases List.mem_append.mp hm with h1 | h2
    · exact digit_inert (hiddig c h1)
    rcases List.mem_append.mp h2 with h3 | h4
    · exact (hfmem c h3).1
    · exact (hexmem c h4).1
  · intro c hm
    rcases List.mem_append.mp hm with h1 | h2
    · exact digit_not_ws (hiddig c h1)
    rcases List.mem_append.mp h2 with h3 | h4
    · exact (hfmem c h3).2
    · exact (hexmem c h4).2
  · intro c hc'
    rcases ids with _ | ⟨d, idtl⟩
    · exact absurd rfl hidne
    have hdc : d = c := by simpa using hc'
    subst hdc
    exact hiddig d (List.mem_cons_self _ _)
  · intro r' hr'
    have hX1 : ∀ c, (fracC ++ (expC ++ r')).head? = some c → isDigitCh c = false :=
      hfhead r' hr'
    unfold parseNumberTail
    rw [show (ids ++ (fracC ++ expC)) ++ r' = ids ++ (fracC ++ (expC ++ r')) from by
      simp [List.append_assoc]]
    rw [hidrun _ hX1]
    show (match parseFracDigits (fracC ++ (expC ++ r')) with
      | none => none
      | some (fds, cs₂) =>
        match parseExpPart cs₂ with
        | none => none
        | some (e, cs₃) =>
          let m : Nat := digitsToNat (ids ++ fds)
          let ex : Int := e - (fds.length : Int)
          let q : Rat :=
            if 0 ≤ ex then ((m * 10 ^ ex.toNat : Nat) : Rat)
            else mkRat (m : Int) (10 ^ (-ex).toNat)
          some (JsonValue.num (if neg then -q else q), cs₃)) = _
    rw [hfrun r' hr']
    show (match parseExpPart (expC ++ r') with
      | none => none
      | some (e, cs₃) =>
        let m : Nat := digitsToNat (ids ++ fds)
        let ex : Int := e - (fds.length : Int)
        let q : Rat :=
          if 0 ≤ ex then ((m * 10 ^ ex.toNat : Nat) : Rat)
          else mkRat (m : Int) (10 ^ (-ex).toNat)
        some (JsonValue.num (if neg then -q else q), cs₃)) = _
    rw [hexrun r' hr']

theorem parseNumber_negEq (cs' : List Char) :
    parseNumber ('-' :: cs') = parseNumberTail true cs' := rfl

theorem parseNumber_posEq {c : Char} (cs' : List Char) (hneg : c ≠ '-') :
    parseNumber (c :: cs') = parseNumberTail false (c :: cs') := by
  unfold parseNumber parseNumberTail
  simp [hneg]

theorem parseNumber_spec {cs : List Char} {v : JsonValue} {rest : List Char}
    (h : parseNumber cs = some (v, rest)) :
    ∃ t, cs = t ++ rest ∧ t ≠ [] ∧ (∀ c ∈ t, inertCh c) ∧ (∀ c ∈ t, isWs c = false) ∧
      ∀ r', NumSafe r' → parseNumber (t ++ r') = some (v, r') := by
  rcases cs with _ | ⟨c, cs'⟩
  · rw [show parseNumber [] = none from rfl] at h
    cases h
  by_cases hneg : c = '-'
  · subst hneg
    rw [parseNumber_negEq] at h
    obtain ⟨t₀, hsplit, hne, hinert, hnws, hhead, hloc⟩ := parseNumberTail_spec h
    refine ⟨'-' :: t₀, by simp [hsplit], by simp, ?_, ?_, ?_⟩
    · intro d hd
      rcases List.mem_cons.mp hd with rfl | hm
      · exact inertCh_of_all (by decide)
      · exact hinert d hm
    · intro d hd
      rcases List.mem_cons.mp hd with rfl | hm
      · decide
      · exact hnws d hm
    · intro r' hr'
      rw [List.cons_append, parseNumber_negEq]
      exact hloc r' hr'
  · rw [parseNumber_posEq cs' hneg] at h
    obtain ⟨t₀, hsplit, hne, hinert, hnws, hhead, hloc⟩ := parseNumberTail_spec h
    rcases t₀ with _ | ⟨c₀, t₁⟩
    · exact absurd rfl hne
    have hcc : c = c₀ := by
      have := congrArg List.head? hsplit
      simpa using this
    subst hcc
    refine ⟨c :: t₁, ?_, by simp, hinert, hnws, ?_⟩
    · have := hsplit
      simpa using this
    · intro r' hr'
      rw [List.cons_append]
      rw [parseNumber_posEq (t₁ ++ r') (ne_of_digit_of_not (hhead c rfl) (by decide))]
      exact hloc r' hr'

/-! ## Case equations for the fueled parsers -/

theorem parseRaw_zero (cs : List Char) : parseRaw 0 cs = none := rfl

theorem parseRaw_succ_nil (f : Nat) : parseRaw (f + 1) [] = none := rfl

theorem parseRaw_succ_cons (f : Nat) (c : Char) (cs : List Char) :
    parseRaw (f + 1) (c :: cs) =
      (if c = '{' then parseObjBody f cs
       else if c = '[' then parseArrBody f cs
       else if c = '"' then
         (parseStringBody cs).map (fun p => (.str (String.mk p.1), p.2))
       else if c = 't' then
         match cs with
         | 'r' :: 'u' :: 'e' :: rest => some (.bool true, rest)
         | _ => none
       else if c = 'f' then
         match cs with
         | 'a' :: 'l' :: 's' :: 'e' :: rest => some (.bool false, rest)
         | _ => none
       else if c = 'n' then
         match cs with
         | 'u' :: 'l' :: 'l' :: rest => some (.null, rest)
         | _ => none
       else if c = '-' || isDigitCh c then parseNumber (c :: cs)
       else none) := rfl

theorem parseVal_zero (cs : List Char) : parseVal 0 cs = none := rfl

theorem parseVal_succ (f : Nat) (cs : List Char) :
    parseVal (f + 1) cs = parseRaw f (skipWs cs) := rfl

theorem parseArrBody_succ (f : Nat) (cs : List Char) :
    parseArrBody (f + 1) cs =
      (match skipWs cs with
       | ']' :: rest => some (.arr [], rest)
       | _ => (parseElems f cs).map (fun p => (.arr p.1, p.2))) := rfl

theorem parseElems_succ (f : Nat) (cs : List Char) :
    parseElems (f + 1) cs =
      (match parseVal f cs with
       | none => none
       | some (v, cs₁) =>
         match skipWs cs₁ with
         | ',' :: cs₂ => (parseElems f cs₂).map (fun p => (v :: p.1, p.2))
         | ']' :: cs₂ => some ([v], cs₂)
         | _ => none) := rfl

theorem parseObjBody_succ (f : Nat) (cs : List Char) :
    parseObjBody (f + 1) cs =
      (match skipWs cs with
       | '}' :: rest => some (.obj [], rest)
       | _ => (parseFields f cs).map (fun p => (.obj p.1, p.2))) := rfl

theorem parseFields_succ (f : Nat) (cs : List Char) :
    parseFields (f + 1) cs =
      (match skipWs cs with
       | '"' :: cs₀ =>
         match parseStringBody cs₀ with
         | none => none
         | some (key, cs₁) =>
           match skipWs cs₁ with
           | ':' :: cs₂ =>
             match parseVal f cs₂ with
             | none => none
             | some (v, cs₃) =>
               match skipWs cs₃ with
               | ',' :: cs₄ =>
                 (parseFields f cs₄).map (fun p => ((String.mk key, v) :: p.1, p.2))
               | '}' :: cs₄ => some ([(String.mk key, v)], cs₄)
               | _ => none
           | _ => none
       | _ => none) := rfl

/-! ## The parser contracts, level by level -/

theorem skipWs_padded {w : List Char} (x : List Char) (hw : allWs w) {c : Char}
    (hc : isWs c = false) : skipWs (w ++ (c :: x)) = c :: x := by
  rw [skipWs_allWs_append _ hw]
  exact skipWs_eq_of_headNonWs (fun d hd => by
    have hcd : c = d := by simpa using hd
    subst hcd
    exact hc)

theorem headNonWs_of_all {t : List Char} (h : ∀ c ∈ t, isWs c = false) :
    headNonWs t := fun c hc => h c (List.mem_of_mem_head? hc)

theorem lastNonWs_of_all {t : List Char} (h : ∀ c ∈ t, isWs c = false) :
    lastNonWs t := fun c hc => h c (List.mem_of_mem_getLast? hc)

theorem valP_succ_of (f : Nat) (hRaw : RawP f) : ValP (f + 1) := by
  intro cs v rest h
  rw [parseVal_succ] at h
  obtain ⟨t, hsplit, hne, hhead, hlast, hsi, hbr, hloc⟩ := hRaw (skipWs cs) v rest h
  obtain ⟨w, hw, hwws⟩ := skipWs_decomp cs
  refine ⟨w, t, ?_, hwws, hne, hhead, hlast, hsi, hbr, ?_⟩
  · rw [hw, hsplit]
  · intro f' w' r' hw' hf' hr'
    rcases f' with _ | f''
    · omega
    rw [parseVal_succ]
    rw [skipWs_allWs_append _ hw']
    rcases t with _ | ⟨c₀, t₁⟩
    · exact absurd rfl hne
    rw [show skipWs ((c₀ :: t₁) ++ r') = (c₀ :: t₁) ++ r' from
      skipWs_eq_of_headNonWs (fun d hd => by
        have hcd : c₀ = d := by simpa using hd
        subst hcd
        exact hhead c₀ rfl)]
    exact hloc f'' r' (by omega) hr'

theorem objBP_succ_of (f : Nat) (hFields : FieldsP f) : ObjBP (f + 1) := by
  intro cs v rest h
  rw [parseObjBody_succ] at h
  split at h
  · rename_i rest₁ heq
    obtain ⟨hv, hr⟩ := Prod.mk.injEq .. |>.mp (Option.some.inj h)
    subst hv; subst hr
    obtain ⟨w, hw, hwws⟩ := skipWs_decomp cs
    refine ⟨w, by rw [hw, heq], posInv_of_splitInv (splitInv_allWs hwws), ?_⟩
    intro f' r' hf'
    rcases f' with _ | f''
    · omega
    rw [parseObjBody_succ, skipWs_padded _ hwws (by decide)]
    rfl
  · rename_i hnotbrace
    obtain ⟨⟨fs, rest₀⟩, hp, hf⟩ := Option.map_eq_some'.mp h
    have hf' : ((JsonValue.obj fs : JsonValue), rest₀) = (v, rest) := hf
    obtain ⟨hv, hr⟩ := Prod.mk.injEq .. |>.mp hf'
    subst hv; subst hr
    obtain ⟨inner, hsplit, hpos, hwfst, hloc⟩ := hFields cs fs _ hp
    obtain ⟨wf, inner₀, hinshape, hwfws⟩ := hwfst
    refine ⟨inner, hsplit, hpos, ?_⟩
    intro f' r' hf'
    rcases f' with _ | f''
    · omega
    have hsw : skipWs (inner ++ ('}' :: r')) = '"' :: (inner₀ ++ ('}' :: r')) := by
      rw [show inner ++ ('}' :: r') = wf ++ ('"' :: (inner₀ ++ ('}' :: r'))) from by
        rw [hinshape]; simp]
      exact skipWs_padded _ hwfws (by decide)
    rw [parseObjBody_succ, hsw]
    show (parseFields f'' (inner ++ ('}' :: r'))).map
        (fun p => ((JsonValue.obj p.1 : JsonValue), p.2)) = some (JsonValue.obj fs, r')
    rw [hloc f'' r' (by omega)]
    rfl

theorem arrBP_succ_of (f : Nat) (hElems : ElemsP f) : ArrBP (f + 1) := by
  intro cs v rest h
  rw [parseArrBody_succ] at h
  split at h
  · rename_i rest₁ heq
    obtain ⟨hv, hr⟩ := Prod.mk.injEq .. |>.mp (Option.some.inj h)
    subst hv; subst hr
    obtain ⟨w, hw, hwws⟩ := skipWs_decomp cs
    refine ⟨w ++ [']'], ?_, Or.inl ⟨w, rfl, rfl, hwws⟩, ?_⟩
    · rw [hw, heq]; simp
    · intro f' r' hf'
      rcases f' with _ | f''
      · omega
      rw [show (w ++ [']']) ++ r' = w ++ (']' :: r') from by simp]
      rw [parseArrBody_succ]
      rw [skipWs_padded _ hwws (by decide)]
      rfl
  · rename_i hnotbracket
    obtain ⟨⟨vs, rest₀⟩, hp, hf⟩ := Option.map_eq_some'.mp h
    have hf2 : ((JsonValue.arr vs : JsonValue), rest₀) = (v, rest) := hf
    obtain ⟨hv, hr⟩ := Prod.mk.injEq .. |>.mp hf2
    subst hv; subst hr
    obtain ⟨wpre, mid, wend, hsplit, hwpre, hwend, hmidne, hmidh, hmidl, hmidbr,
      hmidpos, hpay, hlocE⟩ := hElems cs vs _ hp
    refine ⟨wpre ++ (mid ++ (wend ++ [']'])), ?_,
      Or.inr ⟨wpre, mid, wend, vs, rfl, rfl, hwpre, hwend, hmidne, hmidh, hmidl,
        hmidpos, hpay⟩, ?_⟩
    · rw [hsplit]; simp
    · intro f' r' hf'
      rcases f' with _ | f''
      · omega
      rw [show (wpre ++ (mid ++ (wend ++ [']']))) ++ r' =
          wpre ++ (mid ++ (wend ++ (']' :: r'))) from by simp]
      rw [parseArrBody_succ]
      rcases mid with _ | ⟨m₀, mid₁⟩
      · exact absurd rfl hmidne
      have hsw : skipWs (wpre ++ ((m₀ :: mid₁) ++ (wend ++ (']' :: r')))) =
          (m₀ :: mid₁) ++ (wend ++ (']' :: r')) := by
        rw [show (m₀ :: mid₁) ++ (wend ++ (']' :: r')) =
            m₀ :: (mid₁ ++ (wend ++ (']' :: r'))) from by simp]
        exact skipWs_padded _ hwpre (hmidh m₀ rfl)
      rw [hsw]
      have hm0 : m₀ ≠ ']' := hmidbr m₀ rfl
      split
      · rename_i rest₂ heq₂
        rw [List.cons_append] at heq₂
        injection heq₂ with hinj _
        exact absurd hinj hm0
      · rw [hlocE f'' r' (by
          simp only [List.length_append, List.length_cons] at hf' ⊢
          omega)]
        rfl

theorem rawP_succ_of (f : Nat) (hObj : ObjBP f) (hArr : ArrBP f) : RawP (f + 1) := by
  intro cs v rest h
  rcases cs with _ | ⟨c, cs'⟩
  · rw [parseRaw_succ_nil] at h; cases h
  rw [parseRaw_succ_cons] at h
  by_cases h1 : c = '{'
  · subst h1
    rw [if_pos rfl] at h
    obtain ⟨inner, hsplit, hpos, hlocO⟩ := hObj cs' v rest h
    refine ⟨'{' :: (inner ++ ['}']), ?_, by simp, ?_, ?_, splitInv_wrap_brace hpos,
      ?_, ?_⟩
    · rw [hsplit]; simp
    · intro x hx
      have hxx : '{' = x := by simpa using hx
      subst hxx; decide
    · intro x hx
      rw [show ('{' :: (inner ++ ['}'])) = ('{' :: inner) ++ ['}'] from by simp] at hx
      rw [List.getLast?_concat] at hx
      have hxx : '}' = x := by simpa using hx
      subst hxx; decide
    · intro x hx
      have hxx : '{' = x := by simpa using hx
      subst hxx; decide
    · intro f' r' hf' hr'
      rcases f' with _ | f''
      · omega
      rw [show ('{' :: (inner ++ ['}'])) ++ r' = '{' :: (inner ++ ('}' :: r')) from by
        simp]
      rw [parseRaw_succ_cons, if_pos rfl]
      exact hlocO f'' r' (by
        simp only [List.length_cons, List.length_append] at hf' ⊢
        omega)
  rw [if_neg h1] at h
  by_cases h2 : c = '['
  · subst h2
    rw [if_pos rfl] at h
    obtain ⟨ta, hsplit, hshape, hlocA⟩ := hArr cs' v rest h
    have hta : ∃ u, ta = u ++ [']'] ∧ PosInv u := by
      rcases hshape with ⟨w, hv, hteq, hwws⟩ |
        ⟨wpre, mid, wend, vs, hv, hteq, hwpre, hwend, hmidne, hmh, hml, hmpos, hpay⟩
      · exact ⟨w, hteq, posInv_of_splitInv (splitInv_allWs hwws)⟩
      · exact ⟨wpre ++ (mid ++ wend), by rw [hteq]; simp,
          posInv_append (posInv_of_splitInv (splitInv_allWs hwpre))
            (posInv_append hmpos (posInv_of_splitInv (splitInv_allWs hwend)))⟩
    obtain ⟨u, hueq, hupos⟩ := hta
    refine ⟨'[' :: ta, by rw [hsplit]; simp, by simp, ?_, ?_, ?_, ?_, ?_⟩
    · intro x hx
      have hxx : '[' = x := by simpa using hx
      subst hxx; decide
    · intro x hx
      rw [show ('[' :: ta) = ('[' :: u) ++ [']'] from by rw [hueq]; simp] at hx
      rw [List.getLast?_concat] at hx
      have hxx : ']' = x := by simpa using hx
      subst hxx; decide
    · rw [hueq]
      exact splitInv_wrap_bracket hupos
    · intro x hx
      have hxx : '[' = x := by simpa using hx
      subst hxx; decide
    · intro f' r' hf' hr'
      rcases f' with _ | f''
      · omega
      rw [List.cons_append, parseRaw_succ_cons, if_neg (by decide), if_pos rfl]
      exact hlocA f'' r' (by
        simp only [List.length_cons] at hf' ⊢
        omega)
  rw [if_neg h2] at h
  by_cases h3 : c = '"'
  · subst h3
    rw [if_pos rfl] at h
    obtain ⟨⟨sc, rest₀⟩, hp, hf⟩ := Option.map_eq_some'.mp h
    have hf2 : ((JsonValue.str (String.mk sc) : JsonValue), rest₀) = (v, rest) := hf
    obtain ⟨hv, hr⟩ := Prod.mk.injEq .. |>.mp hf2
    subst hv; subst hr
    obtain ⟨body, hbeq, hstr, hlocS⟩ := parseStringBody_spec cs'.length cs' le_rfl sc _ hp
    refine ⟨'"' :: (body ++ ['"']), ?_, by simp, ?_, ?_, splitInv_stringLit hstr, ?_, ?_⟩
    · rw [hbeq]; simp
    · intro x hx
      have hxx : '"' = x := by simpa using hx
      subst hxx; decide
    · intro x hx
      rw [show ('"' :: (body ++ ['"'])) = ('"' :: body) ++ ['"'] from by simp] at hx
      rw [List.getLast?_concat] at hx
      have hxx : '"' = x := by simpa using hx
      subst hxx; decide
    · intro x hx
      have hxx : '"' = x := by simpa using hx
      subst hxx; decide
    · intro f' r' hf' hr'
      rcases f' with _ | f''
      · omega
      rw [show ('"' :: (body ++ ['"'])) ++ r' = '"' :: (body ++ ('"' :: r')) from by
        simp]
      rw [parseRaw_succ_cons, if_neg (by decide), if_neg (by decide), if_pos rfl]
      rw [hlocS r']
      rfl
  rw [if_neg h3] at h
  by_cases h4 : c = 't'
  · subst h4
    rw [if_pos rfl] at h
    split at h
    · rename_i rest₁
      obtain ⟨hv, hr⟩ := Prod.mk.injEq .. |>.mp (Option.some.inj h)
      subst hv; subst hr
      refine ⟨['t', 'r', 'u', 'e'], by simp, by simp, ?_, ?_,
        splitInv_inert (by decide), ?_, ?_⟩
      · intro x hx
        have hxx : 't' = x := by simpa using hx
        subst hxx; decide
      · intro x hx
        have hxx : 'e' = x := by simpa using hx
        subst hxx; decide
      · intro x hx
        have hxx : 't' = x := by simpa using hx
        subst hxx; decide
      · intro f' r' hf' hr'
        rcases f' with _ | f''
        · omega
        rfl
    · exact absurd h (by simp)
  rw [if_neg h4] at h
  by_cases h5 : c = 'f'
  · subst h5
    rw [if_pos rfl] at h
    split at h
    · rename_i rest₁
      obtain ⟨hv, hr⟩ := Prod.mk.injEq .. |>.mp (Option.some.inj h)
      subst hv; subst hr
      refine ⟨['f', 'a', 'l', 's', 'e'], by simp, by simp, ?_, ?_,
        splitInv_inert (by decide), ?_, ?_⟩
      · intro x hx
        have hxx : 'f' = x := by simpa using hx
        subst hxx; decide
      · intro x hx
        have hxx : 'e' = x := by simpa using hx
        subst hxx; decide
      · intro x hx
        have hxx : 'f' = x := by simpa using hx
        subst hxx; decide
      · intro f' r' hf' hr'
        rcases f' with _ | f''
        · omega
        rfl
    · exact absurd h (by simp)
  rw [if_neg h5] at h
  by_cases h6 : c = 'n'
  · subst h6
    rw [if_pos rfl] at h
    split at h
    · rename_i rest₁
      obtain ⟨hv, hr⟩ := Prod.mk.injEq .. |>.mp (Option.some.inj h)
      subst hv; subst hr
      refine ⟨['n', 'u', 'l', 'l'], by simp, by simp, ?_, ?_,
        splitInv_inert (by decide), ?_, ?_⟩
      · intro x hx
        have hxx : 'n' = x := by simpa using hx
        subst hxx; decide
      · intro x hx
        have hxx : 'l' = x := by simpa using hx
        subst hxx; decide
      · intro x hx
        have hxx : 'n' = x := by simpa using hx
        subst hxx; decide
      · intro f' r' hf' hr'
        rcases f' with _ | f''
        · omega
        rfl
    · exact absurd h (by simp)
  rw [if_neg h6] at h
  by_cases h7 : (c = '-' || isDigitCh c) = true
  · rw [if_pos h7] at h
    obtain ⟨t, hsplit, hne, hinert, hnws, hloc⟩ := parseNumber_spec h
    refine ⟨t, hsplit, hne, headNonWs_of_all hnws, lastNonWs_of_all hnws,
      splitInv_inert hinert, ?_, ?_⟩
    · intro x hx
      exact (hinert x (List.mem_of_mem_head? hx)).2.2.2.2.1
    · intro f' r' hf' hr'
      rcases f' with _ | f''
      · omega
      rcases t with _ | ⟨c₀, t₁⟩
      · exact absurd rfl hne
      have hcc : c = c₀ := by
        have hh := congrArg List.head? hsplit
        simpa using hh
      subst hcc
      rw [List.cons_append, parseRaw_succ_cons, if_neg h1, if_neg h2, if_neg h3,
        if_neg h4, if_neg h5, if_neg h6, if_pos h7]
      rw [← List.cons_append]
      exact hloc r' hr'
  · rw [if_neg h7] at h
    cases h

theorem scanStep_comma_zero :
    scanStep ⟨0, 0, false, false⟩ ',' = (⟨0, 0, false, false⟩, true) := by
  simp [scanStep]

theorem splitFold_comma_zero (acc : List (List Char)) (cur : List Char) (X : List Char) :
    splitFold ⟨0, 0, false, false⟩ acc cur (',' :: X) =
      splitFold ⟨0, 0, false, false⟩ (acc ++ [trimChars cur]) [] X := by
  simp only [splitFold, scanStep_comma_zero]
  rw [if_pos trivial]

theorem getLast?_append_right {a b : List Char} (hb : b ≠ []) :
    (a ++ b).getLast? = b.getLast? := by
  rcases List.eq_nil_or_concat b with rfl | ⟨b₀, c, rfl⟩
  · exact absurd rfl hb
  · simp only [List.concat_eq_append]
    rw [show a ++ (b₀ ++ [c]) = (a ++ b₀) ++ [c] from by simp]
    rw [List.getLast?_concat, List.getLast?_concat]

theorem jsonParse_of_run {t : List Char} {v : JsonValue}
    (hrun : parseVal (fuelFor t.length) t = some (v, [])) : jsonParse t = some v := by
  unfold jsonParse
  rw [hrun]
  rfl

theorem elemsP_succ_of (f : Nat) (hVal : ValP f) (hElems : ElemsP f) :
    ElemsP (f + 1) := by
  intro cs vs rest h
  rw [parseElems_succ] at h
  split at h
  · simp at h
  rename_i v cs₁ heqV
  split at h
  · -- comma arm
    rename_i cs₂ heq₁
    obtain ⟨⟨vs₁, rest₀⟩, hpE, hf⟩ := Option.map_eq_some'.mp h
    have hf2 : (v :: vs₁, rest₀) = (vs, rest) := hf
    obtain ⟨hv, hr⟩ := Prod.mk.injEq .. |>.mp hf2
    subst hv; subst hr
    obtain ⟨wpre₂, mid₂, wend₂, hsplit₂, hwpre₂, hwend₂, hmidne₂, hmidh₂, hmidl₂,
      hmidbr₂, hmidpos₂, hpay₂, hlocE₂⟩ := hElems cs₂ vs₁ _ hpE
    obtain ⟨w, t, hsplitV, hwws, htne, hthead, htlast, hsiv, htbr, hlocV⟩ :=
      hVal cs v cs₁ heqV
    obtain ⟨w₁, hw₁, hw₁ws⟩ := skipWs_decomp cs₁
    have hjp : jsonParse t = some v := jsonParse_of_run (by
      have hrun := hlocV (fuelFor t.length) [] [] (by intro c hc; cases hc)
        (by simp only [fuelFor]; omega) numSafe_nil
      simpa using hrun)
    refine ⟨w, t ++ (w₁ ++ (',' :: (wpre₂ ++ mid₂))), wend₂, ?_, hwws, hwend₂,
      ?_, ?_, ?_, ?_, ?_, ?_, ?_⟩
    · rw [hsplitV, hw₁, heq₁, hsplit₂]
      simp [List.append_assoc]
    · simp [htne]
    · rcases t with _ | ⟨c₀, t₁⟩
      · exact absurd rfl htne
      intro x hx
      have hxx : c₀ = x := by simpa using hx
      subst hxx
      exact hthead c₀ rfl
    · intro x hx
      rw [getLast?_append_right (by simp)] at hx
      rw [getLast?_append_right (by simp)] at hx
      rw [show (',' :: (wpre₂ ++ mid₂)) = [','] ++ (wpre₂ ++ mid₂) from rfl] at hx
      rw [getLast?_append_right (by simp [hmidne₂])] at hx
      rw [getLast?_append_right hmidne₂] at hx
      exact hmidl₂ x hx
    · rcases t with _ | ⟨c₀, t₁⟩
      · exact absurd rfl htne
      intro x hx
      have hxx : c₀ = x := by simpa using hx
      subst hxx
      exact htbr c₀ rfl
    · exact posInv_append (posInv_of_splitInv hsiv)
        (posInv_append (posInv_of_splitInv (splitInv_allWs hw₁ws))
          (posInv_append posInv_comma
            (posInv_append (posInv_of_splitInv (splitInv_allWs hwpre₂)) hmidpos₂)))
    · obtain ⟨cores₂, lastCore₂, hfold₂, hlcne₂, hdec₂⟩ := hpay₂
      refine ⟨t :: cores₂, lastCore₂, ?_, hlcne₂, ?_⟩
      · intro acc cur hcur
        rw [show (t ++ (w₁ ++ (',' :: (wpre₂ ++ mid₂)))) =
            (t ++ w₁) ++ (',' :: (wpre₂ ++ mid₂)) from by simp]
        rw [splitFold_append,
          splitInv_append hsiv (splitInv_allWs hw₁ws) 0 0 le_rfl le_rfl acc cur]
        rw [splitFold_comma_zero]
        rw [trimChars_sandwich hcur hw₁ws hthead htlast]
        rw [splitFold_append,
          splitInv_allWs hwpre₂ 0 0 le_rfl le_rfl (acc ++ [t]) []]
        rw [List.nil_append]
        obtain ⟨lastSeg, hls, hlt⟩ := hfold₂ (acc ++ [t]) wpre₂ hwpre₂
        refine ⟨lastSeg, ?_, hlt⟩
        rw [hls]
        simp [List.append_assoc]
      · simp only [List.cons_append, List.map_cons]
        rw [hjp]
        rw [show ((cores₂ ++ [lastCore₂]).map (fun s => jsonParse s)) = vs₁.map some
          from hdec₂]
    · intro f' r' hf'
      rcases f' with _ | f''
      · omega
      rw [show w ++ ((t ++ (w₁ ++ (',' :: (wpre₂ ++ mid₂)))) ++ (wend₂ ++ (']' :: r'))) =
          w ++ (t ++ (w₁ ++ (',' :: (wpre₂ ++ (mid₂ ++ (wend₂ ++ (']' :: r'))))))) from by
        simp [List.append_assoc]]
      rw [parseElems_succ]
      have hns : NumSafe (w₁ ++ (',' :: (wpre₂ ++ (mid₂ ++ (wend₂ ++ (']' :: r')))))) :=
        numSafe_allWs_append hw₁ws
          (numSafe_cons _ (by decide) (by decide) (by decide) (by decide))
      rw [hlocV f'' w _ hwws (by
        simp only [List.length_append, List.length_cons] at hf' ⊢
        omega) hns]
      show (match skipWs (w₁ ++ (',' :: (wpre₂ ++ (mid₂ ++ (wend₂ ++ (']' :: r')))))) with
        | ',' :: cs₂ => (parseElems f'' cs₂).map (fun p => (v :: p.1, p.2))
        | ']' :: cs₂ => some ([v], cs₂)
        | _ => none) = some (v :: vs₁, r')
      rw [skipWs_padded _ hw₁ws (by decide)]
      show (parseElems f'' (wpre₂ ++ (mid₂ ++ (wend₂ ++ (']' :: r'))))).map
          (fun p => (v :: p.1, p.2)) = some (v :: vs₁, r')
      rw [hlocE₂ f'' r' (by
        simp only [List.length_append, List.length_cons] at hf' ⊢
        omega)]
      rfl
  · -- closing-bracket arm
    rename_i cs₂ heq₁
    obtain ⟨hv, hr⟩ := Prod.mk.injEq .. |>.mp (Option.some.inj h)
    subst hv; subst hr
    obtain ⟨w, t, hsplitV, hwws, htne, hthead, htlast, hsiv, htbr, hlocV⟩ :=
      hVal cs v cs₁ heqV
    obtain ⟨w₁, hw₁, hw₁ws⟩ := skipWs_decomp cs₁
    have hjp : jsonParse t = some v := jsonParse_of_run (by
      have hrun := hlocV (fuelFor t.length) [] [] (by intro c hc; cases hc)
        (by simp only [fuelFor]; omega) numSafe_nil
      simpa using hrun)
    refine ⟨w, t, w₁, ?_, hwws, hw₁ws, htne, hthead, htlast, htbr,
      posInv_of_splitInv hsiv, ?_, ?_⟩
    · rw [hsplitV, hw₁, heq₁]
    · refine ⟨[], t, ?_, htne, ?_⟩
      · intro acc cur hcur
        refine ⟨cur ++ t, ?_, trimChars_left_pad hcur hthead htlast⟩
        rw [hsiv 0 0 le_rfl le_rfl acc cur]
        simp
      · simp [hjp]
    · intro f' r' hf'
      rcases f' with _ | f''
      · omega
      rw [parseElems_succ]
      have hns : NumSafe (w₁ ++ (']' :: r')) :=
        numSafe_allWs_append hw₁ws
          (numSafe_cons _ (by decide) (by decide) (by decide) (by decide))
      rw [hlocV f'' w _ hwws (by omega) hns]
      show (match skipWs (w₁ ++ (']' :: r')) with
        | ',' :: cs₂ => (parseElems f'' cs₂).map (fun p => (v :: p.1, p.2))
        | ']' :: cs₂ => some ([v], cs₂)
        | _ => none) = some ([v], r')
      rw [skipWs_padded _ hw₁ws (by decide)]
      rfl
  · simp at h

theorem fieldsP_succ_of (f : Nat) (hVal : ValP f) (hFields : FieldsP f) :
    FieldsP (f + 1) := by
  intro cs fs rest h
  rw [parseFields_succ] at h
  split at h
  · rename_i cs₀ heq₀
    split at h
    · simp at h
    rename_i key cs₁ heqS
    split at h
    · rename_i cs₂ heq₂
      split at h
      · simp at h
      rename_i v cs₃ heqV
      split at h
      · -- comma arm: another field follows
        rename_i cs₄ heq₃
        obtain ⟨⟨fs₁, rest₀⟩, hpF, hff⟩ := Option.map_eq_some'.mp h
        have hf2 : ((String.mk key, v) :: fs₁, rest₀) = (fs, rest) := hff
        obtain ⟨hv, hr⟩ := Prod.mk.injEq .. |>.mp hf2
        subst hv; subst hr
        obtain ⟨inner₄, hsplit₄, hpos₄, hwf₄, hloc₄⟩ := hFields cs₄ fs₁ _ hpF
        obtain ⟨w₀, hw₀, hw₀ws⟩ := skipWs_decomp cs
        obtain ⟨body, hbeq, hstr, hlocS⟩ :=
          parseStringBody_spec cs₀.length cs₀ le_rfl key _ heqS
        obtain ⟨w₁, hw₁, hw₁ws⟩ := skipWs_decomp cs₁
        obtain ⟨w₂, t, hsplitV, hw₂ws, htne, hthead, htlast, hsiv, htbr, hlocV⟩ :=
          hVal cs₂ v cs₃ heqV
        obtain ⟨w₃, hw₃, hw₃ws⟩ := skipWs_decomp cs₃
        refine ⟨w₀ ++ (('"' :: (body ++ ['"'])) ++ (w₁ ++ ([':'] ++
          (w₂ ++ (t ++ (w₃ ++ ([','] ++ inner₄))))))), ?_, ?_, ?_, ?_⟩
        · rw [hw₀, heq₀, hbeq, hw₁, heq₂, hsplitV, hw₃, heq₃, hsplit₄]
          simp [List.append_assoc]
        · exact posInv_append (posInv_of_splitInv (splitInv_allWs hw₀ws))
            (posInv_append (posInv_of_splitInv (splitInv_stringLit hstr))
              (posInv_append (posInv_of_splitInv (splitInv_allWs hw₁ws))
                (posInv_append (posInv_of_splitInv (splitInv_single_inert (by decide)))
                  (posInv_append (posInv_of_splitInv (splitInv_allWs hw₂ws))
                    (posInv_append (posInv_of_splitInv hsiv)
                      (posInv_append (posInv_of_splitInv (splitInv_allWs hw₃ws))
                        (posInv_append posInv_comma hpos₄)))))))
        · exact ⟨w₀, _, rfl, hw₀ws⟩
        · intro f' r' hf'
          rcases f' with _ | f''
          · omega
          have hcanon : (w₀ ++ (('"' :: (body ++ ['"'])) ++ (w₁ ++ ([':'] ++
              (w₂ ++ (t ++ (w₃ ++ ([','] ++ inner₄)))))))) ++ ('}' :: r') =
              w₀ ++ ('"' :: (body ++ ('"' :: (w₁ ++ (':' :: (w₂ ++ (t ++
                (w₃ ++ (',' :: (inner₄ ++ ('}' :: r'))))))))))) := by
            simp [List.append_assoc]
          rw [hcanon, parseFields_succ, skipWs_padded _ hw₀ws (by decide)]
          show (match parseStringBody (body ++ ('"' :: (w₁ ++ (':' :: (w₂ ++ (t ++
              (w₃ ++ (',' :: (inner₄ ++ ('}' :: r')))))))))) with
            | none => none
            | some (key, cs₁) =>
              match skipWs cs₁ with
              | ':' :: cs₂ =>
                match parseVal f'' cs₂ with
                | none => none
                | some (v, cs₃) =>
                  match skipWs cs₃ with
                  | ',' :: cs₄ =>
                    (parseFields f'' cs₄).map (fun p => ((String.mk key, v) :: p.1, p.2))
                  | '}' :: cs₄ => some ([(String.mk key, v)], cs₄)
                  | _ => none
              | _ => none) = some ((String.mk key, v) :: fs₁, r')
          rw [hlocS (w₁ ++ (':' :: (w₂ ++ (t ++ (w₃ ++ (',' :: (inner₄ ++ ('}' :: r'))))))))]
          show (match skipWs (w₁ ++ (':' :: (w₂ ++ (t ++ (w₃ ++ (',' ::
              (inner₄ ++ ('}' :: r')))))))) with
            | ':' :: cs₂ =>
              match parseVal f'' cs₂ with
              | none => none
              | some (v, cs₃) =>
                match skipWs cs₃ with
                | ',' :: cs₄ =>
                  (parseFields f'' cs₄).map (fun p => ((String.mk key, v) :: p.1, p.2))
                | '}' :: cs₄ => some ([(String.mk key, v)], cs₄)
                | _ => none
            | _ => none) = some ((String.mk key, v) :: fs₁, r')
          rw [skipWs_padded _ hw₁ws (by decide)]
          show (match parseVal f'' (w₂ ++ (t ++ (w₃ ++ (',' ::
              (inner₄ ++ ('}' :: r')))))) with
            | none => none
            | some (v, cs₃) =>
              match skipWs cs₃ with
              | ',' :: cs₄ =>
                (parseFields f'' cs₄).map (fun p => ((String.mk key, v) :: p.1, p.2))
              | '}' :: cs₄ => some ([(String.mk key, v)], cs₄)
              | _ => none) = some ((String.mk key, v) :: fs₁, r')
          have hns : NumSafe (w₃ ++ (',' :: (inner₄ ++ ('}' :: r')))) :=
            numSafe_allWs_append hw₃ws
              (numSafe_cons _ (by decide) (by decide) (by decide) (by decide))
          rw [hlocV f'' w₂ _ hw₂ws (by
            simp only [List.length_append, List.length_cons, List.length_nil] at hf' ⊢
            omega) hns]
          show (match skipWs (w₃ ++ (',' :: (inner₄ ++ ('}' :: r')))) with
            | ',' :: cs₄ =>
              (parseFields f'' cs₄).map (fun p => ((String.mk key, v) :: p.1, p.2))
            | '}' :: cs₄ => some ([(String.mk key, v)], cs₄)
            | _ => none) = some ((String.mk key, v) :: fs₁, r')
          rw [skipWs_padded _ hw₃ws (by decide)]
          show (parseFields f'' (inner₄ ++ ('}' :: r'))).map
            (fun p => ((String.mk key, v) :: p.1, p.2)) = some ((String.mk key, v) :: fs₁, r')
          rw [hloc₄ f'' r' (by
            simp only [List.length_append, List.length_cons, List.length_nil] at hf' ⊢
            omega)]
          rfl
      · -- closing-brace arm: last field
        rename_i cs₄ heq₃
        obtain ⟨hv, hr⟩ := Prod.mk.injEq .. |>.mp (Option.some.inj h)
        subst hv; subst hr
        obtain ⟨w₀, hw₀, hw₀ws⟩ := skipWs_decomp cs
        obtain ⟨body, hbeq, hstr, hlocS⟩ :=
          parseStringBody_spec cs₀.length cs₀ le_rfl key _ heqS
        obtain ⟨w₁, hw₁, hw₁ws⟩ := skipWs_decomp cs₁
        obtain ⟨w₂, t, hsplitV, hw₂ws, htne, hthead, htlast, hsiv, htbr, hlocV⟩ :=
          hVal cs₂ v cs₃ heqV
        obtain ⟨w₃, hw₃, hw₃ws⟩ := skipWs_decomp cs₃
        refine ⟨w₀ ++ (('"' :: (body ++ ['"'])) ++ (w₁ ++ ([':'] ++
          (w₂ ++ (t ++ w₃))))), ?_, ?_, ?_, ?_⟩
        · rw [hw₀, heq₀, hbeq, hw₁, heq₂, hsplitV, hw₃, heq₃]
          simp [List.append_assoc]
        · exact posInv_append (posInv_of_splitInv (splitInv_allWs hw₀ws))
            (posInv_append (posInv_of_splitInv (splitInv_stringLit hstr))
              (posInv_append (posInv_of_splitInv (splitInv_allWs hw₁ws))
                (posInv_append (posInv_of_splitInv (splitInv_single_inert (by decide)))
                  (posInv_append (posInv_of_splitInv (splitInv_allWs hw₂ws))
                    (posInv_append (posInv_of_splitInv hsiv)
                      (posInv_of_splitInv (splitInv_allWs hw₃ws)))))))
        · exact ⟨w₀, _, rfl, hw₀ws⟩
        · intro f' r' hf'
          rcases f' with _ | f''
          · omega
          have hcanon : (w₀ ++ (('"' :: (body ++ ['"'])) ++ (w₁ ++ ([':'] ++
              (w₂ ++ (t ++ w₃)))))) ++ ('}' :: r') =
              w₀ ++ ('"' :: (body ++ ('"' :: (w₁ ++ (':' :: (w₂ ++ (t ++
                (w₃ ++ ('}' :: r'))))))))) := by
            simp [List.append_assoc]
          rw [hcanon, parseFields_succ, skipWs_padded _ hw₀ws (by decide)]
          show (match parseStringBody (body ++ ('"' :: (w₁ ++ (':' :: (w₂ ++ (t ++
              (w₃ ++ ('}' :: r')))))))) with
            | none => none
            | some (key, cs₁) =>
              match skipWs cs₁ with
              | ':' :: cs₂ =>
                match parseVal f'' cs₂ with
                | none => none
                | some (v, cs₃) =>
                  match skipWs cs₃ with
                  | ',' :: cs₄ =>
                    (parseFields f'' cs₄).map (fun p => ((String.mk key, v) :: p.1, p.2))
                  | '}' :: cs₄ => some ([(String.mk key, v)], cs₄)
                  | _ => none
              | _ => none) = some ([(String.mk key, v)], r')
          rw [hlocS (w₁ ++ (':' :: (w₂ ++ (t ++ (w₃ ++ ('}' :: r'))))))]
          show (match skipWs (w₁ ++ (':' :: (w₂ ++ (t ++ (w₃ ++ ('}' :: r')))))) with
            | ':' :: cs₂ =>
              match parseVal f'' cs₂ with
              | none => none
              | some (v, cs₃) =>
                match skipWs cs₃ with
                | ',' :: cs₄ =>
                  (parseFields f'' cs₄).map (fun p => ((String.mk key, v) :: p.1, p.2))
                | '}' :: cs₄ => some ([(String.mk key, v)], cs₄)
                | _ => none
            | _ => none) = some ([(String.mk key, v)], r')
          rw [skipWs_padded _ hw₁ws (by decide)]
          show (match parseVal f'' (w₂ ++ (t ++ (w₃ ++ ('}' :: r')))) with
            | none => none
            | some (v, cs₃) =>
              match skipWs cs₃ with
              | ',' :: cs₄ =>
                (parseFields f'' cs₄).map (fun p => ((String.mk key, v) :: p.1, p.2))
              | '}' :: cs₄ => some ([(String.mk key, v)], cs₄)
              | _ => none) = some ([(String.mk key, v)], r')
          have hns : NumSafe (w₃ ++ ('}' :: r')) :=
            numSafe_allWs_append hw₃ws
              (numSafe_cons _ (by decide) (by decide) (by decide) (by decide))
          rw [hlocV f'' w₂ _ hw₂ws (by
            simp only [List.length_append, List.length_cons, List.length_nil] at hf' ⊢
            omega) hns]
          show (match skipWs (w₃ ++ ('}' :: r')) with
            | ',' :: cs₄ =>
              (parseFields f'' cs₄).map (fun p => ((String.mk key, v) :: p.1, p.2))
            | '}' :: cs₄ => some ([(String.mk key, v)], cs₄)
            | _ => none) = some ([(String.mk key, v)], r')
          rw [skipWs_padded _ hw₃ws (by decide)]
          rfl
      · simp at h
    · simp at h
  · simp at h

theorem parser_contracts :
    ∀ f : Nat, RawP f ∧ ValP f ∧ ArrBP f ∧ ElemsP f ∧ ObjBP f ∧ FieldsP f := by
  intro f
  induction f with
  | zero =>
    refine ⟨?_, ?_, ?_, ?_, ?_, ?_⟩
    · intro cs v rest h
      rw [parseRaw_zero] at h; cases h
    · intro cs v rest h
      rw [parseVal_zero] at h; cases h
    · intro cs v rest h
      rw [show parseArrBody 0 cs = none from rfl] at h; cases h
    · intro cs vs rest h
      rw [show parseElems 0 cs = none from rfl] at h; cases h
    · intro cs v rest h
      rw [show parseObjBody 0 cs = none from rfl] at h; cases h
    · intro cs fs rest h
      rw [show parseFields 0 cs = none from rfl] at h; cases h
  | succ f ih =>
    obtain ⟨ihRaw, ihVal, ihArr, ihElems, ihObj, ihFields⟩ := ih
    exact ⟨rawP_succ_of f ihObj ihArr, valP_succ_of f ihRaw, arrBP_succ_of f ihElems,
      elemsP_succ_of f ihVal ihElems, objBP_succ_of f ihFields,
      fieldsP_succ_of f ihVal ihFields⟩

/-! ## Top-level assembly for the streaming refinement -/

theorem skipWs_eq_trim_append (cs : List Char) :
    ∃ wsfx, skipWs cs = trimChars cs ++ wsfx ∧ allWs wsfx := by
  refine ⟨((cs.dropWhile (fun c => isWs c)).reverse.takeWhile (fun c => isWs c)).reverse,
    ?_, ?_⟩
  · have h0 := List.takeWhile_append_dropWhile (fun c => isWs c)
      ((cs.dropWhile (fun c => isWs c)).reverse)
    calc skipWs cs = ((skipWs cs).reverse).reverse := (List.reverse_reverse _).symm
      _ = (((cs.dropWhile (fun c => isWs c)).reverse.takeWhile (fun c => isWs c)) ++
          ((cs.dropWhile (fun c => isWs c)).reverse.dropWhile (fun c => isWs c))).reverse := by
        rw [h0]
        rfl
      _ = trimChars cs ++
          ((cs.dropWhile (fun c => isWs c)).reverse.takeWhile (fun c => isWs c)).reverse := by
        rw [List.reverse_append]
        rfl
  · intro c hc
    exact List.mem_takeWhile_imp (List.mem_reverse.mp hc)

theorem filterMap_of_map_eq_map_some {α β : Type} (g : α → Option β) :
    ∀ (l : List α) (vs : List β), l.map g = vs.map some → l.filterMap g = vs := by
  intro l
  induction l with
  | nil =>
    intro vs h
    cases vs with
    | nil => rfl
    | cons v vs' => simp at h
  | cons a l ih =>
    intro vs h
    cases vs with
    | nil => simp at h
    | cons v vs' =>
      simp only [List.map_cons, List.cons.injEq] at h
      obtain ⟨h1, h2⟩ := h
      rw [List.filterMap_cons, h1]
      simp [ih vs' h2]

/-- Claim C6.  For every input whose trimmed form starts with `[`, ends
with `]`, and is accepted by the whole-document decoder as an array,
the array-streaming path (chunk scanner plus per-item decoder) returns
exactly the same ordered sequence of element values, and the router
`parseJsonStream` therefore completes with the same array. -/
theorem c6_streaming_refines_document (content : List Char) (vs : List JsonValue)
    (hasPartial : Bool)
    (h1 : (trimChars content).head? = some '[')
    (h2 : (trimChars content).getLast? = some ']')
    (hdoc : jsonParse content = some (.arr vs)) :
    (parseArrayStreamM content hasPartial).2 = .ok vs ∧
    (parseJsonStreamM content hasPartial).2 = .ok (.arr vs) := by
  have hpv0 : ∃ rest, parseVal (fuelFor content.length) content = some (.arr vs, rest) ∧
      skipWs rest = [] := by
    unfold jsonParse at hdoc
    split at hdoc
    · simp at hdoc
    rename_i v₀ rest heqpv
    by_cases hsk : skipWs rest = []
    · rw [if_pos hsk] at hdoc
      have hv := Option.some.inj hdoc
      subst hv
      exact ⟨rest, heqpv, hsk⟩
    · rw [if_neg hsk] at hdoc
      cases hdoc
  obtain ⟨rest, hpv, hsk⟩ := hpv0
  obtain ⟨wsfx, hskw, hwsfx⟩ := skipWs_eq_trim_append content
  rcases htc : trimChars content with _ | ⟨tch, tc'⟩
  · rw [htc] at h1
    cases h1
  have htch : tch = '[' := by
    rw [htc] at h1
    simpa using h1
  subst htch
  rw [htc] at hskw
  have h8 : fuelFor content.length = 4 * content.length + 7 + 1 := by
    simp only [fuelFor]
  rw [h8, parseVal_succ] at hpv
  rw [hskw] at hpv
  rw [show (('[' :: tc') ++ wsfx : List Char) = '[' :: (tc' ++ wsfx) from rfl] at hpv
  have h7 : 4 * content.length + 7 = 4 * content.length + 6 + 1 := by omega
  rw [h7, parseRaw_succ_cons, if_neg (by decide), if_pos rfl] at hpv
  obtain ⟨ta, hXsplit, hshape, hlocA⟩ :=
    (parser_contracts (4 * content.length + 6)).2.2.1 _ _ _ hpv
  obtain ⟨w₀, hw₀, hw₀ws⟩ := skipWs_decomp content
  have hrest_ws : allWs rest := allWs_of_skipWs_nil hsk
  have hcontent : content = w₀ ++ (('[' :: ta) ++ rest) := by
    rw [hw₀, hskw]
    rw [show (('[' :: tc') ++ wsfx : List Char) = '[' :: (tc' ++ wsfx) from rfl, hXsplit]
    simp
  have harr : (parseArrayStreamM content hasPartial).2 = .ok vs := by
    rcases hshape with ⟨wa, hva, htaeq, hwaws⟩ |
      ⟨wpre, mid, wend, vs', hva, htaeq, hwpre, hwend, hmidne, hmidh, hmidl,
        hmidpos, hpay⟩
    · have hvs : vs = [] := by injection hva
      subst hvs
      have htrim : trimChars content = '[' :: ta := by
        rw [hcontent]
        refine trimChars_sandwich hw₀ws hrest_ws ?_ ?_
        · intro x hx
          have hxx : '[' = x := by simpa using hx
          subst hxx
          decide
        · intro x hx
          rw [show ('[' :: ta) = ('[' :: wa) ++ [']'] from by rw [htaeq]; simp] at hx
          rw [List.getLast?_concat] at hx
          have hxx : ']' = x := by simpa using hx
          subst hxx
          decide
      have hinner : trimChars (((trimChars content).drop 1).dropLast) = [] := by
        rw [htrim]
        rw [show ('[' :: ta).drop 1 = ta from rfl, htaeq, List.dropLast_concat]
        exact trimChars_allWs hwaws
      simp only [parseArrayStreamM]
      rw [if_neg (by simp [h1, h2])]
      rw [if_pos hinner]
    · have hvs : vs = vs' := by injection hva
      subst hvs
      have htrim : trimChars content = '[' :: ta := by
        rw [hcontent]
        refine trimChars_sandwich hw₀ws hrest_ws ?_ ?_
        · intro x hx
          have hxx : '[' = x := by simpa using hx
          subst hxx
          decide
        · intro x hx
          rw [show ('[' :: ta) = ('[' :: (wpre ++ (mid ++ wend))) ++ [']'] from by
            rw [htaeq]; simp] at hx
          rw [List.getLast?_concat] at hx
          have hxx : ']' = x := by simpa using hx
          subst hxx
          decide
      have hinner : trimChars (((trimChars content).drop 1).dropLast) = mid := by
        rw [htrim]
        rw [show ('[' :: ta).drop 1 = ta from rfl]
        rw [show ta = (wpre ++ (mid ++ wend)) ++ [']'] from by rw [htaeq]; simp]
        rw [List.dropLast_concat]
        exact trimChars_sandwich hwpre hwend hmidh hmidl
      obtain ⟨cores, lastCore, hfold, hlcne, hdec⟩ := hpay
      obtain ⟨lastSeg, hls, hlt⟩ := hfold [] [] (by intro c hc; cases hc)
      have hsc : scanItems mid = cores ++ [lastCore] := by
        unfold scanItems
        rw [show (ScanSt.init : ScanSt) = ⟨0, 0, false, false⟩ from rfl]
        rw [hls]
        show (if trimChars lastSeg ≠ [] then
            ([] ++ cores) ++ [trimChars lastSeg] else [] ++ cores) = cores ++ [lastCore]
        rw [hlt, if_pos hlcne]
        simp
      simp only [parseArrayStreamM]
      rw [if_neg (by simp [h1, h2])]
      rw [hinner]
      rw [if_neg hmidne]
      show Except.ok (batchLoop content.length (mid.length - 1) (scanItems mid).length
        (max 1 ((scanItems mid).length / 10)) hasPartial (scanItems mid).length 0 []
        (scanItems mid)).2 = Except.ok vs
      have hbs : 0 < max 1 ((scanItems mid).length / 10) :=
        Nat.lt_of_lt_of_le Nat.zero_lt_one (Nat.le_max_left _ _)
      rw [batchLoop_items content.length (mid.length - 1) (scanItems mid).length
        (max 1 ((scanItems mid).length / 10)) hasPartial hbs (scanItems mid).length
        (scanItems mid) 0 [] (Nat.le_refl _)]
      rw [List.nil_append, hsc]
      have hdec' : (cores ++ [lastCore]).map decodeItem = vs.map some := hdec
      rw [filterMap_of_map_eq_map_some decodeItem (cores ++ [lastCore]) vs hdec']
  refine ⟨harr, ?_⟩
  simp only [parseJsonStreamM]
  rw [if_pos h1]
  show ((parseArrayStreamM content hasPartial).2.map JsonValue.arr : Except WorkerError JsonValue) = .ok (.arr vs)
  rw [harr]
  rfl

/-- Witness for `c6_streaming_refines_document` at the concrete input `[1,2]`. -/
theorem c6_streaming_refines_document_witness :
    (parseArrayStreamM ("[1,2]".toList) false).2 = .ok [.num 1, .num 2] ∧
    (parseJsonStreamM ("[1,2]".toList) false).2 = .ok (.arr [.num 1, .num 2]) :=
  c6_streaming_refines_document ("[1,2]".toList) [.num 1, .num 2] false
    (by decide) (by decide) (by decide)
